import Mathlib

/-!
Verification of the audio-visualizer core in `src/source.hpp`.

Part 1 models the C `circlebuf` ring buffer (an untyped growable circular
byte buffer).  Bytes are modelled as `Nat`, the backing allocation as a
`List Nat` whose length equals the `capacity` field.  `brealloc` preserves
the existing bytes and extends the allocation; freshly allocated bytes are
uninitialized in C and modelled here as `0` (no verified operation reads
them before writing them).

Part 2 models the inline `WAVSource` helpers: `get_audio_sync` over
exact 64-bit integer arithmetic, and `dbfs` / `get_gravity` over the real
numbers (the C code computes them in IEEE `float`; the real-number model
captures the exact formulas the code implements).
-/

/-- `memcpy`/`memset` into a byte region: overwrite `bytes.length` bytes of
`mem` starting at offset `off`.  Matches C semantics when the write is in
bounds (`off + bytes.length ≤ mem.length`), which holds at every use below. -/
def memWrite (mem : List Nat) (off : Nat) (bytes : List Nat) : List Nat :=
  mem.take off ++ bytes ++ mem.drop (off + bytes.length)

/-- Read `n` bytes of `mem` starting at offset `off` (source side of `memcpy`). -/
def memRead (mem : List Nat) (off n : Nat) : List Nat :=
  (mem.drop off).take n

/-- `realloc` to `n` bytes: keeps the common prefix, new bytes are modelled as 0. -/
def brealloc (mem : List Nat) (n : Nat) : List Nat :=
  mem.take n ++ List.replicate (n - mem.length) 0

/-- `struct circlebuf` from `source.hpp`: an untyped circular byte buffer.
`data` models the heap allocation (length = `capacity`). -/
structure Circlebuf where
  data : List Nat
  size : Nat
  start_pos : Nat
  end_pos : Nat
  capacity : Nat
deriving DecidableEq

/-- `circlebuf_init`: zeroed-out struct. -/
def circlebuf_init : Circlebuf := ⟨[], 0, 0, 0, 0⟩

/-- `circlebuf_reorder_data`: called after the allocation has been extended to
`new_capacity` but while the `capacity` field still holds the old capacity.
If the stored data wraps, slides the tail `[start_pos, capacity)` to the end
of the new allocation. -/
def circlebuf_reorder_data (cb : Circlebuf) (new_capacity : Nat) : Circlebuf :=
  if cb.size = 0 ∨ cb.start_pos = 0 ∨ cb.start_pos < cb.end_pos then cb
  else
    let difference := new_capacity - cb.capacity
    { cb with
      data := memWrite cb.data (cb.start_pos + difference)
                (memRead cb.data cb.start_pos (cb.capacity - cb.start_pos)),
      start_pos := cb.start_pos + difference }

/-- Common tail of `circlebuf_ensure_capacity` and `circlebuf_reserve`:
`brealloc` to `new_capacity`, reorder wrapped data, store the new capacity. -/
def circlebuf_growTo (cb : Circlebuf) (new_capacity : Nat) : Circlebuf :=
  let cb1 := { cb with data := brealloc cb.data new_capacity }
  let cb2 := circlebuf_reorder_data cb1 new_capacity
  { cb2 with capacity := new_capacity }

/-- `circlebuf_ensure_capacity`: grow to `max (capacity * 2) size` when
`size > capacity`. -/
def circlebuf_ensure_capacity (cb : Circlebuf) : Circlebuf :=
  if cb.size ≤ cb.capacity then cb
  else
    let nc0 := cb.capacity * 2
    let new_capacity := if cb.size > nc0 then cb.size else nc0
    circlebuf_growTo cb new_capacity

/-- `circlebuf_reserve`: grow the allocation to exactly `capacity` if larger. -/
def circlebuf_reserve (cb : Circlebuf) (capacity : Nat) : Circlebuf :=
  if capacity ≤ cb.capacity then cb
  else circlebuf_growTo cb capacity

/-- `circlebuf_upsize`: grow `size` to `size'`, zero-filling the new bytes at
the back (possibly wrapping around the end of the allocation). -/
def circlebuf_upsize (cb : Circlebuf) (size' : Nat) : Circlebuf :=
  if size' ≤ cb.size then cb
  else
    let add_size := size' - cb.size
    let new_end_pos := cb.end_pos + add_size
    let cbE := circlebuf_ensure_capacity { cb with size := size' }
    if new_end_pos > cbE.capacity then
      let back_size := cbE.capacity - cbE.end_pos
      let loop_size := add_size - back_size
      let d1 := memWrite cbE.data cbE.end_pos (List.replicate back_size 0)
      let d2 := memWrite d1 0 (List.replicate loop_size 0)
      { cbE with data := d2, end_pos := new_end_pos - cbE.capacity }
    else
      { cbE with data := memWrite cbE.data cbE.end_pos (List.replicate add_size 0),
                 end_pos := new_end_pos }

/-- `circlebuf_place`: overwrite `bytes` at logical offset `position`,
growing (and zero-filling any gap) via `circlebuf_upsize` first if needed. -/
def circlebuf_place (cb0 : Circlebuf) (position0 : Nat) (bytes : List Nat) : Circlebuf :=
  let size := bytes.length
  let end_point := position0 + size
  let cb := if end_point > cb0.size then circlebuf_upsize cb0 end_point else cb0
  let p1 := position0 + cb.start_pos
  let position := if p1 ≥ cb.capacity then p1 - cb.capacity else p1
  let data_end_pos := position + size
  if data_end_pos > cb.capacity then
    let back_size := data_end_pos - cb.capacity
    let loop_size := size - back_size
    let d1 := memWrite cb.data position (bytes.take loop_size)
    let d2 := memWrite d1 0 (bytes.drop loop_size)
    { cb with data := d2 }
  else
    { cb with data := memWrite cb.data position bytes }

/-- `circlebuf_push_back`: append `bytes` at the end (possibly wrapping). -/
def circlebuf_push_back (cb0 : Circlebuf) (bytes : List Nat) : Circlebuf :=
  let size := bytes.length
  let new_end_pos := cb0.end_pos + size
  let cb := circlebuf_ensure_capacity { cb0 with size := cb0.size + size }
  if new_end_pos > cb.capacity then
    let back_size := cb.capacity - cb.end_pos
    let loop_size := size - back_size
    let d1 := memWrite cb.data cb.end_pos (bytes.take back_size)
    let d2 := memWrite d1 0 (bytes.drop back_size)
    { cb with data := d2, end_pos := new_end_pos - cb.capacity }
  else
    { cb with data := memWrite cb.data cb.end_pos bytes, end_pos := new_end_pos }

/-- `circlebuf_push_front`: prepend `bytes` before `start_pos`
(possibly wrapping). -/
def circlebuf_push_front (cb0 : Circlebuf) (bytes : List Nat) : Circlebuf :=
  let size := bytes.length
  let cb := circlebuf_ensure_capacity { cb0 with size := cb0.size + size }
  if cb.size = size then
    { cb with start_pos := 0, end_pos := size, data := memWrite cb.data 0 bytes }
  else if cb.start_pos < size then
    let back_size := size - cb.start_pos
    let d1 := memWrite cb.data 0 (bytes.drop back_size)
    let sp := cb.capacity - back_size
    let d2 := memWrite d1 sp (bytes.take back_size)
    { cb with data := d2, start_pos := sp }
  else
    { cb with data := memWrite cb.data (cb.start_pos - size) bytes,
              start_pos := cb.start_pos - size }

/-- `circlebuf_push_back_zero`: like `circlebuf_push_back` with zero bytes. -/
def circlebuf_push_back_zero (cb0 : Circlebuf) (size : Nat) : Circlebuf :=
  let new_end_pos := cb0.end_pos + size
  let cb := circlebuf_ensure_capacity { cb0 with size := cb0.size + size }
  if new_end_pos > cb.capacity then
    let back_size := cb.capacity - cb.end_pos
    let loop_size := size - back_size
    let d1 := memWrite cb.data cb.end_pos (List.replicate back_size 0)
    let d2 := memWrite d1 0 (List.replicate loop_size 0)
    { cb with data := d2, end_pos := new_end_pos - cb.capacity }
  else
    { cb with data := memWrite cb.data cb.end_pos (List.replicate size 0),
              end_pos := new_end_pos }

/-- `circlebuf_push_front_zero`: like `circlebuf_push_front` with zero bytes. -/
def circlebuf_push_front_zero (cb0 : Circlebuf) (size : Nat) : Circlebuf :=
  let cb := circlebuf_ensure_capacity { cb0 with size := cb0.size + size }
  if cb.size = size then
    { cb with start_pos := 0, end_pos := size,
              data := memWrite cb.data 0 (List.replicate size 0) }
  else if cb.start_pos < size then
    let back_size := size - cb.start_pos
    let d1 := memWrite cb.data 0 (List.replicate cb.start_pos 0)
    let sp := cb.capacity - back_size
    let d2 := memWrite d1 sp (List.replicate back_size 0)
    { cb with data := d2, start_pos := sp }
  else
    { cb with data := memWrite cb.data (cb.start_pos - size) (List.replicate size 0),
              start_pos := cb.start_pos - size }

/-- `circlebuf_peek_front`: copy out the first `size` stored bytes
(precondition `size ≤ cb.size`). -/
def circlebuf_peek_front (cb : Circlebuf) (size : Nat) : List Nat :=
  let start_size := cb.capacity - cb.start_pos
  if start_size < size then
    memRead cb.data cb.start_pos start_size ++ memRead cb.data 0 (size - start_size)
  else
    memRead cb.data cb.start_pos size

/-- `circlebuf_peek_back`: copy out the last `size` stored bytes
(precondition `size ≤ cb.size`). -/
def circlebuf_peek_back (cb : Circlebuf) (size : Nat) : List Nat :=
  let back_size := if cb.end_pos ≠ 0 then cb.end_pos else cb.capacity
  if back_size < size then
    let front_size := size - back_size
    let new_end_pos := cb.capacity - front_size
    memRead cb.data new_end_pos front_size ++ memRead cb.data 0 back_size
  else
    memRead cb.data (cb.end_pos - size) size

/-- `circlebuf_pop_front`: peek the first `size` bytes and consume them. -/
def circlebuf_pop_front (cb0 : Circlebuf) (size : Nat) : List Nat × Circlebuf :=
  let out := circlebuf_peek_front cb0 size
  let cb := { cb0 with size := cb0.size - size }
  if cb.size = 0 then (out, { cb with start_pos := 0, end_pos := 0 })
  else
    let sp := cb.start_pos + size
    (out, { cb with start_pos := if sp ≥ cb.capacity then sp - cb.capacity else sp })

/-- `circlebuf_pop_back`: peek the last `size` bytes and consume them. -/
def circlebuf_pop_back (cb0 : Circlebuf) (size : Nat) : List Nat × Circlebuf :=
  let out := circlebuf_peek_back cb0 size
  let cb := { cb0 with size := cb0.size - size }
  if cb.size = 0 then (out, { cb with start_pos := 0, end_pos := 0 })
  else if cb.end_pos ≤ size then
    (out, { cb with end_pos := cb.capacity - (size - cb.end_pos) })
  else
    (out, { cb with end_pos := cb.end_pos - size })

/-- `circlebuf_data`: physical offset of the byte at logical index `idx`,
or `none` when `idx` is out of range (the C function returns `NULL` then,
and otherwise a pointer `data + offset`). -/
def circlebuf_data (cb : Circlebuf) (idx : Nat) : Option Nat :=
  let offset := cb.start_pos + idx
  if idx ≥ cb.size then none
  else if offset ≥ cb.capacity then some (offset - cb.capacity)
  else some offset

/-! ## Representation invariant

`Models cb l` says the buffer `cb` stores exactly the byte sequence `l`:
the `size` field is `l.length`, the geometry fields are in their canonical
ranges, and byte `i` of `l` lives at physical offset `idx start_pos i capacity`.
-/

/-- Physical offset of logical index `i` (one conditional wrap, as in the code). -/
def idx (sp i cap : Nat) : Nat :=
  if sp + i < cap then sp + i else sp + i - cap

/-- Canonical `end_pos` for a buffer of `size` bytes starting at `sp`. -/
def endOf (sp size cap : Nat) : Nat :=
  if sp + size ≤ cap then sp + size else sp + size - cap

/-- Geometry part of the invariant, with the stored byte count `oldsize` given
separately from the `size` field (during growth the `size` field is already
bumped while only `oldsize` bytes are stored). -/
def ModelsGeom (cb : Circlebuf) (oldsize : Nat) (l : List Nat) : Prop :=
  cb.data.length = cb.capacity ∧
  oldsize ≤ cb.capacity ∧
  (cb.capacity = 0 ∨ cb.start_pos < cb.capacity) ∧
  cb.end_pos = endOf cb.start_pos oldsize cb.capacity ∧
  (oldsize = 0 → cb.start_pos = 0 ∧ cb.end_pos = 0) ∧
  (∀ i, i < oldsize → cb.data[idx cb.start_pos i cb.capacity]? = l[i]?)

/-- The full representation invariant relating a buffer to its logical content. -/
def Models (cb : Circlebuf) (l : List Nat) : Prop :=
  l.length = cb.size ∧ ModelsGeom cb cb.size l

/-! ## Operation sequences

`BufOp` is a client-visible ring-buffer operation; `execOps` runs a sequence
against the C buffer, `specOps` against the abstract byte-list model in which
the front of the list is the front of the queue. -/

inductive BufOp where
  | pushBack : List Nat → BufOp
  | pushFront : List Nat → BufOp
  | popFront : Nat → BufOp
  | popBack : Nat → BufOp
  | peekFront : Nat → BufOp
  | peekBack : Nat → BufOp

/-- Run one operation on the concrete buffer, returning the copied-out bytes. -/
def execOp (cb : Circlebuf) : BufOp → List Nat × Circlebuf
  | .pushBack b => ([], circlebuf_push_back cb b)
  | .pushFront b => ([], circlebuf_push_front cb b)
  | .popFront n => circlebuf_pop_front cb n
  | .popBack n => circlebuf_pop_back cb n
  | .peekFront n => (circlebuf_peek_front cb n, cb)
  | .peekBack n => (circlebuf_peek_back cb n, cb)

/-- Run one operation on the abstract byte list: pushes append at the chosen
end, `popFront`/`peekFront` read from the front (FIFO), `popBack`/`peekBack`
read from the back (LIFO). -/
def specOp (l : List Nat) : BufOp → List Nat × List Nat
  | .pushBack b => ([], l ++ b)
  | .pushFront b => ([], b ++ l)
  | .popFront n => (l.take n, l.drop n)
  | .popBack n => (l.drop (l.length - n), l.take (l.length - n))
  | .peekFront n => (l.take n, l)
  | .peekBack n => (l.drop (l.length - n), l)

/-- The peek/pop precondition: never request more than the current size. -/
def opOk (l : List Nat) : BufOp → Bool
  | .popFront n => decide (n ≤ l.length)
  | .popBack n => decide (n ≤ l.length)
  | .peekFront n => decide (n ≤ l.length)
  | .peekBack n => decide (n ≤ l.length)
  | _ => true

def legal (l : List Nat) : List BufOp → Bool
  | [] => true
  | op :: ops => opOk l op && legal (specOp l op).2 ops

def execOps (cb : Circlebuf) : List BufOp → List (List Nat) × Circlebuf
  | [] => ([], cb)
  | op :: ops =>
    let r := execOp cb op
    let rs := execOps r.2 ops
    (r.1 :: rs.1, rs.2)

def specOps (l : List Nat) : List BufOp → List (List Nat) × List Nat
  | [] => ([], l)
  | op :: ops =>
    let r := specOp l op
    let rs := specOps r.2 ops
    (r.1 :: rs.1, rs.2)

/-- Total number of bytes pushed by a sequence. -/
def pushedBytes : List BufOp → Nat
  | [] => 0
  | .pushBack b :: ops => b.length + pushedBytes ops
  | .pushFront b :: ops => b.length + pushedBytes ops
  | .popFront _ :: ops => pushedBytes ops
  | .popBack _ :: ops => pushedBytes ops
  | .peekFront _ :: ops => pushedBytes ops
  | .peekBack _ :: ops => pushedBytes ops

/-- Total number of bytes popped (peeks do not consume). -/
def poppedBytes : List BufOp → Nat
  | [] => 0
  | .pushBack _ :: ops => poppedBytes ops
  | .pushFront _ :: ops => poppedBytes ops
  | .popFront n :: ops => n + poppedBytes ops
  | .popBack n :: ops => n + poppedBytes ops
  | .peekFront _ :: ops => poppedBytes ops
  | .peekBack _ :: ops => poppedBytes ops

/-! ## WAVSource inline helpers (Part 2) -/

/-- `MAX_TS_DELTA`: 16 seconds in nanoseconds (`1000000000ull * 16u`). -/
def MAX_TS_DELTA : Nat := 1000000000 * 16

/-- `WAVSource::get_audio_sync`: `m_audio_ts + m_ts_offset` is `uint64_t`
arithmetic (the signed offset is converted and added modulo `2^64`); the
absolute difference to `ts` is clamped to `MAX_TS_DELTA` and given the sign
of `audio_ts - ts`.  The `(int64_t)delta` cast is exact because
`delta ≤ MAX_TS_DELTA < 2^63`. -/
def get_audio_sync (m_audio_ts : Nat) (m_ts_offset : Int) (ts : Nat) : Int :=
  let audio_ts : Nat := (((m_audio_ts : Int) + m_ts_offset) % (2 ^ 64 : Int)).toNat
  let delta0 : Nat := max audio_ts ts - min audio_ts ts
  let delta : Nat := min delta0 MAX_TS_DELTA
  if audio_ts < ts then -(delta : Int) else (delta : Int)

/-- `TSmoothingMode` from `source.hpp`. -/
inductive TSmoothingMode where
  | NONE
  | EXPONENTIAL
  | TVEXPONENTIAL
deriving DecidableEq

/-- `std::lerp(a, b, t) = a + t*(b-a)`. -/
noncomputable def lerp (a b t : ℝ) : ℝ := a + t * (b - a)

/-- `WAVSource::dbfs`.  The floor constant `DB_MIN` is declared in the header
but defined in a source file outside the repository snapshot, so it is a
parameter here. -/
noncomputable def dbfs (db_min : ℝ) (mag : ℝ) : ℝ :=
  if mag > 0 then 20 * Real.logb 10 mag else db_min

/-- The tuning constant `denom` in `WAVSource::get_gravity`. -/
noncomputable def gravity_denom : ℝ := 0.03868924705242879469662125316986

/-- `WAVSource::get_gravity`: temporal-smoothing decay coefficient for one
frame of `seconds` seconds. -/
noncomputable def get_gravity (m_tsmoothing : TSmoothingMode) (m_gravity : ℝ)
    (seconds : ℝ) : ℝ :=
  let denom := gravity_denom
  let hi := denom * 5
  let lo : ℝ := 0
  if m_tsmoothing = TSmoothingMode.NONE ∨ m_gravity ≤ 0 then 0
  else if m_tsmoothing = TSmoothingMode.TVEXPONENTIAL then
    Real.exp (-seconds / lerp lo hi m_gravity)
  else m_gravity

/-- The structural invariant of the ring buffer named by the specification. -/
def SafeInv (cb : Circlebuf) : Prop :=
  cb.size ≤ cb.capacity ∧ (cb.size = 0 → cb.start_pos = 0 ∧ cb.end_pos = 0)

/-- A concrete wrapped buffer state used by the witnesses: bytes 4,5,6,7 with
the stored range wrapping around the end of the 4-byte allocation. -/
def cbW : Circlebuf := ⟨[5, 6, 7, 4], 4, 3, 3, 4⟩

def lW : List Nat := [4, 5, 6, 7]

/-- A concrete operation sequence exercising growth, reordering and both ends. -/
def opsW : List BufOp :=
  [BufOp.pushBack [1, 2, 3, 4], BufOp.popFront 3, BufOp.pushBack [5, 6, 7],
   BufOp.pushFront [8, 9], BufOp.peekFront 2, BufOp.popBack 4, BufOp.peekBack 1,
   BufOp.popFront 2]

/-- A capacity-3 buffer used in the reserve counterexample. -/
def cbR : Circlebuf := circlebuf_push_back circlebuf_init [1, 2, 3]

instance decidableModelsGeom (cb : Circlebuf) (oldsize : Nat) (l : List Nat) :
    Decidable (ModelsGeom cb oldsize l) := by
  unfold ModelsGeom
  infer_instance

instance decidableModels (cb : Circlebuf) (l : List Nat) : Decidable (Models cb l) := by
  unfold Models
  infer_instance

theorem memWrite_length (mem bytes : List Nat) (off : Nat)
    (h : off + bytes.length ≤ mem.length) :
    (memWrite mem off bytes).length = mem.length := by
  simp [memWrite]
  omega

theorem memWrite_getElem?_left (mem bytes : List Nat) (off j : Nat)
    (h : off + bytes.length ≤ mem.length) (hj : j < off) :
    (memWrite mem off bytes)[j]? = mem[j]? := by
  unfold memWrite
  rw [List.getElem?_append_left (by simp; omega), List.getElem?_append_left (by simp; omega)]
  rw [List.getElem?_take_of_lt hj]

theorem memWrite_getElem?_mid (mem bytes : List Nat) (off j : Nat)
    (h : off + bytes.length ≤ mem.length) (h1 : off ≤ j) (h2 : j < off + bytes.length) :
    (memWrite mem off bytes)[j]? = bytes[j - off]? := by
  unfold memWrite
  rw [List.getElem?_append_left (by simp; omega)]
  rw [List.getElem?_append_right (by simp; omega)]
  have : j - (mem.take off).length = j - off := by simp; omega
  rw [this]

theorem memWrite_getElem?_right (mem bytes : List Nat) (off j : Nat)
    (h : off + bytes.length ≤ mem.length) (h2 : off + bytes.length ≤ j) :
    (memWrite mem off bytes)[j]? = mem[j]? := by
  by_cases hl : j < mem.length
  · unfold memWrite
    rw [List.getElem?_append_right (by simp; omega)]
    have : j - (mem.take off ++ bytes).length = j - (off + bytes.length) := by simp; omega
    rw [this, List.getElem?_drop]
    have : off + bytes.length + (j - (off + bytes.length)) = j := by omega
    rw [this]
  · have e1 : (memWrite mem off bytes)[j]? = none := by
      rw [List.getElem?_eq_none_iff, memWrite_length mem bytes off h]
      omega
    have e2 : mem[j]? = none := List.getElem?_eq_none_iff.mpr (by omega)
    rw [e1, e2]

theorem memRead_length (mem : List Nat) (off n : Nat)
    (h : off + n ≤ mem.length) :
    (memRead mem off n).length = n := by
  simp [memRead]
  omega

theorem memRead_getElem? (mem : List Nat) (off n i : Nat) (hi : i < n) :
    (memRead mem off n)[i]? = mem[off + i]? := by
  unfold memRead
  rw [List.getElem?_take_of_lt hi, List.getElem?_drop]

theorem brealloc_length (mem : List Nat) (n : Nat) (h : mem.length ≤ n) :
    (brealloc mem n).length = n := by
  simp [brealloc]
  omega

theorem brealloc_getElem?_lt (mem : List Nat) (n j : Nat) (hj : j < mem.length)
    (h : mem.length ≤ n) :
    (brealloc mem n)[j]? = mem[j]? := by
  unfold brealloc
  rw [List.getElem?_append_left (by simp; omega), List.getElem?_take_of_lt (by omega)]

theorem models_init : Models circlebuf_init [] := by
  refine ⟨rfl, rfl, Nat.le_refl 0, Or.inl rfl, rfl, fun _ => ⟨rfl, rfl⟩, fun i hi => absurd hi (by simp [circlebuf_init])⟩

theorem reorder_data_noop (cb : Circlebuf) (nc : Nat)
    (h : cb.size = 0 ∨ cb.start_pos = 0 ∨ cb.start_pos < cb.end_pos) :
    circlebuf_reorder_data cb nc = cb := by
  unfold circlebuf_reorder_data
  rw [if_pos h]

theorem reorder_data_move (d : List Nat) (sz sp ep cap nc : Nat)
    (h : ¬(sz = 0 ∨ sp = 0 ∨ sp < ep)) :
    circlebuf_reorder_data ⟨d, sz, sp, ep, cap⟩ nc =
      ⟨memWrite d (sp + (nc - cap)) (memRead d sp (cap - sp)),
       sz, sp + (nc - cap), ep, cap⟩ := by
  unfold circlebuf_reorder_data
  rw [if_neg h]

/-- Growing the allocation (`brealloc` + `circlebuf_reorder_data` + capacity
update, the shared tail of `circlebuf_ensure_capacity`/`circlebuf_reserve`)
keeps the `size`/`end_pos` fields, puts `start_pos` in range for the new
capacity, and preserves the stored bytes, wrapped or not. -/
theorem growTo_spec (cb : Circlebuf) (oldsize : Nat) (l : List Nat) (nc : Nat)
    (hg : ModelsGeom cb oldsize l) (hsz : oldsize ≤ cb.size) (hnc : cb.capacity < nc) :
    (circlebuf_growTo cb nc).capacity = nc ∧
    (circlebuf_growTo cb nc).size = cb.size ∧
    (circlebuf_growTo cb nc).end_pos = cb.end_pos ∧
    ModelsGeom (circlebuf_growTo cb nc) oldsize l := by
  obtain ⟨hdata, holdsz, hspb, hep, hzero, hcontent⟩ := hg
  obtain ⟨data, sz, sp, ep, cap⟩ := cb
  dsimp only at hdata holdsz hspb hep hzero hcontent hsz hnc ⊢
  subst hep
  have hd1 : (brealloc data nc).length = nc := brealloc_length _ _ (by omega)
  have hrw : circlebuf_growTo ⟨data, sz, sp, endOf sp oldsize cap, cap⟩ nc =
      ⟨(circlebuf_reorder_data ⟨brealloc data nc, sz, sp, endOf sp oldsize cap, cap⟩ nc).data,
       (circlebuf_reorder_data ⟨brealloc data nc, sz, sp, endOf sp oldsize cap, cap⟩ nc).size,
       (circlebuf_reorder_data ⟨brealloc data nc, sz, sp, endOf sp oldsize cap, cap⟩ nc).start_pos,
       (circlebuf_reorder_data ⟨brealloc data nc, sz, sp, endOf sp oldsize cap, cap⟩ nc).end_pos,
       nc⟩ := rfl
  by_cases hng : sz = 0 ∨ sp = 0 ∨ sp < endOf sp oldsize cap
  · -- data does not wrap (or is empty): reorder is a no-op
    rw [hrw, reorder_data_noop _ _ hng]
    refine ⟨rfl, rfl, rfl, ?_⟩
    unfold ModelsGeom
    dsimp only
    have hkey : oldsize = 0 ∨ sp + oldsize ≤ cap := by
      rcases hng with h0 | h0 | h0
      · left; omega
      · right; omega
      · right
        unfold endOf at h0
        split at h0 <;> omega
    have hsp' : sp < nc := by
      by_cases hO : oldsize = 0
      · have h2 := hzero hO
        omega
      · rcases hspb with h | h <;> omega
    refine ⟨hd1, by omega, Or.inr hsp', ?_, ?_, ?_⟩
    · by_cases hO : oldsize = 0
      · have h2 := hzero hO
        unfold endOf
        split_ifs <;> omega
      · have h2 : sp + oldsize ≤ cap := by rcases hkey with h | h <;> omega
        unfold endOf
        split_ifs <;> omega
    · intro h
      exact hzero h
    · intro i hi
      have h2 : sp + oldsize ≤ cap := by rcases hkey with h | h <;> omega
      have hidx : idx sp i nc = sp + i := by
        unfold idx
        rw [if_pos (by omega)]
      have hidx2 : idx sp i cap = sp + i := by
        unfold idx
        rw [if_pos (by omega)]
      rw [hidx, brealloc_getElem?_lt _ _ _ (by omega) (by omega)]
      have hc := hcontent i hi
      rw [hidx2] at hc
      exact hc
  · -- wrapped data: reorder slides the tail [sp, cap) to the end
    have hng' := hng
    push_neg at hng'
    obtain ⟨hsz0, hsp0, hle⟩ := hng'
    have hos : 0 < oldsize := by
      by_contra h
      have h0 : oldsize = 0 := by omega
      exact hsp0 (hzero h0).1
    have hcap0 : 0 < cap := by
      rcases hspb with h | h <;> omega
    have hsp : sp < cap := by rcases hspb with h | h <;> omega
    have hwrap : cap < sp + oldsize := by
      unfold endOf at hle
      by_contra h
      rw [if_pos (by omega)] at hle
      omega
    have hepv : endOf sp oldsize cap = sp + oldsize - cap := by
      unfold endOf
      rw [if_neg (by omega)]
    rw [hrw, reorder_data_move _ _ _ _ _ _ hng]
    refine ⟨rfl, rfl, rfl, ?_⟩
    unfold ModelsGeom
    dsimp only
    have hrlen : (memRead (brealloc data nc) sp (cap - sp)).length = cap - sp :=
      memRead_length _ _ _ (by omega)
    have hwlen : (memWrite (brealloc data nc) (sp + (nc - cap))
        (memRead (brealloc data nc) sp (cap - sp))).length = nc := by
      rw [memWrite_length _ _ _ (by omega), hd1]
    refine ⟨hwlen, by omega, Or.inr (by omega), ?_, by omega, ?_⟩
    · rw [hepv]
      unfold endOf
      rw [if_neg (by omega)]
      omega
    · intro i hi
      by_cases hc : i < cap - sp
      · -- byte moved with the tail chunk
        have hidx : idx (sp + (nc - cap)) i nc = sp + (nc - cap) + i := by
          unfold idx
          rw [if_pos (by omega)]
        rw [hidx, memWrite_getElem?_mid _ _ _ _ (by omega) (by omega) (by omega)]
        have he : sp + (nc - cap) + i - (sp + (nc - cap)) = i := by omega
        rw [he, memRead_getElem? _ _ _ _ (by omega)]
        rw [brealloc_getElem?_lt _ _ _ (by omega) (by omega)]
        have hcc := hcontent i hi
        have hidx2 : idx sp i cap = sp + i := by
          unfold idx
          rw [if_pos (by omega)]
        rw [hidx2] at hcc
        exact hcc
      · -- byte in the untouched front part [0, ep)
        have hidx : idx (sp + (nc - cap)) i nc = sp + i - cap := by
          unfold idx
          rw [if_neg (by omega)]
          omega
        rw [hidx, memWrite_getElem?_left _ _ _ _ (by omega) (by omega)]
        rw [brealloc_getElem?_lt _ _ _ (by omega) (by omega)]
        have hcc := hcontent i hi
        have hidx2 : idx sp i cap = sp + i - cap := by
          unfold idx
          rw [if_neg (by omega)]
        rw [hidx2] at hcc
        exact hcc

theorem ensure_capacity_of_le (cb : Circlebuf) (h : cb.size ≤ cb.capacity) :
    circlebuf_ensure_capacity cb = cb := by
  unfold circlebuf_ensure_capacity
  rw [if_pos h]

theorem ensure_capacity_of_gt (cb : Circlebuf) (h : ¬cb.size ≤ cb.capacity) :
    circlebuf_ensure_capacity cb =
      circlebuf_growTo cb (if cb.size > cb.capacity * 2 then cb.size else cb.capacity * 2) := by
  unfold circlebuf_ensure_capacity
  rw [if_neg h]

/-- `circlebuf_ensure_capacity` on a buffer whose `size` field was already
bumped past the `oldsize` stored bytes: grows to `max (2·capacity) size`
when needed, fixes the geometry for the new capacity, and preserves the
stored bytes. -/
theorem ensure_capacity_spec (cb : Circlebuf) (oldsize : Nat) (l : List Nat)
    (hg : ModelsGeom cb oldsize l) (hsz : oldsize ≤ cb.size) :
    (circlebuf_ensure_capacity cb).size = cb.size ∧
    (circlebuf_ensure_capacity cb).end_pos = cb.end_pos ∧
    cb.capacity ≤ (circlebuf_ensure_capacity cb).capacity ∧
    cb.size ≤ (circlebuf_ensure_capacity cb).capacity ∧
    (circlebuf_ensure_capacity cb).capacity =
      (if cb.size ≤ cb.capacity then cb.capacity else max (cb.capacity * 2) cb.size) ∧
    ModelsGeom (circlebuf_ensure_capacity cb) oldsize l := by
  by_cases h : cb.size ≤ cb.capacity
  · rw [ensure_capacity_of_le cb h, if_pos h]
    exact ⟨rfl, rfl, Nat.le_refl _, h, rfl, hg⟩
  · rw [ensure_capacity_of_gt cb h, if_neg h]
    have hnc : cb.capacity < (if cb.size > cb.capacity * 2 then cb.size else cb.capacity * 2) := by
      split <;> omega
    have hg2 := growTo_spec cb oldsize l _ hg hsz hnc
    refine ⟨hg2.2.1, hg2.2.2.1, ?_, ?_, ?_, hg2.2.2.2⟩
    · rw [hg2.1]; omega
    · rw [hg2.1]; split <;> omega
    · rw [hg2.1]; split <;> omega

/-- Effect of the `size += k; circlebuf_ensure_capacity(cb)` prologue shared
by the push operations. -/
theorem ensure_after_bump (cb : Circlebuf) (l : List Nat) (k : Nat) (hm : Models cb l) :
    (circlebuf_ensure_capacity { cb with size := cb.size + k }).size = cb.size + k ∧
    (circlebuf_ensure_capacity { cb with size := cb.size + k }).end_pos = cb.end_pos ∧
    cb.capacity ≤ (circlebuf_ensure_capacity { cb with size := cb.size + k }).capacity ∧
    cb.size + k ≤ (circlebuf_ensure_capacity { cb with size := cb.size + k }).capacity ∧
    ModelsGeom (circlebuf_ensure_capacity { cb with size := cb.size + k }) cb.size l := by
  obtain ⟨hlen, hgeom⟩ := hm
  have hg : ModelsGeom { cb with size := cb.size + k } cb.size l := hgeom
  have h := ensure_capacity_spec { cb with size := cb.size + k } cb.size l hg (by dsimp only; omega)
  obtain ⟨h1, h2, h3, h4, _h5, h6⟩ := h
  dsimp only at h1 h2 h3 h4
  exact ⟨h1, h2, h3, h4, h6⟩

/-- `circlebuf_push_back` appends its bytes to the logical content and never
shrinks the capacity. -/
theorem push_back_spec (cb : Circlebuf) (l bytes : List Nat) (hm : Models cb l) :
    Models (circlebuf_push_back cb bytes) (l ++ bytes) ∧
    cb.capacity ≤ (circlebuf_push_back cb bytes).capacity := by
  have hlen := hm.1
  obtain ⟨hEsz, hEep, hEcap1, hEcap2, hEgeom⟩ := ensure_after_bump cb l bytes.length hm
  obtain ⟨hEdata, hEos, hEspb, hEendOf, hEzero, hEcontent⟩ := hEgeom
  unfold circlebuf_push_back
  dsimp only
  set cbE := circlebuf_ensure_capacity { cb with size := cb.size + bytes.length } with hcbE
  have hepv : cb.end_pos = endOf cbE.start_pos cb.size cbE.capacity := by
    rw [← hEep]; exact hEendOf
  have hEzero' : cb.size = 0 → cbE.start_pos = 0 ∧ cb.end_pos = 0 :=
    fun h => ⟨(hEzero h).1, by rw [← hEep]; exact (hEzero h).2⟩
  have heple : cb.end_pos ≤ cbE.capacity := by
    unfold endOf at hepv
    rcases hEspb with h | h
    · have h0 := hEzero' (by omega)
      omega
    · split at hepv <;> omega
  rw [hEep]
  by_cases hw : cb.end_pos + bytes.length > cbE.capacity
  · -- the appended bytes wrap around the end of the allocation
    rw [if_pos hw]
    have hcap0 : 0 < cbE.capacity := by
      by_contra h
      have h0 := hEzero' (by omega)
      omega
    have hspE : cbE.start_pos < cbE.capacity := by
      rcases hEspb with h | h <;> omega
    -- in this case the stored bytes cannot themselves wrap
    have hnw : cbE.start_pos + cb.size ≤ cbE.capacity ∧ cb.end_pos = cbE.start_pos + cb.size := by
      unfold endOf at hepv
      split at hepv <;> omega
    have htlen : (bytes.take (cbE.capacity - cb.end_pos)).length = cbE.capacity - cb.end_pos := by
      rw [List.length_take]
      omega
    have hdlen : (bytes.drop (cbE.capacity - cb.end_pos)).length
        = bytes.length - (cbE.capacity - cb.end_pos) := by
      rw [List.length_drop]
    have hd1len : (memWrite cbE.data cb.end_pos (bytes.take (cbE.capacity - cb.end_pos))).length
        = cbE.capacity := by
      rw [memWrite_length _ _ _ (by rw [htlen, hEdata]; omega), hEdata]
    have hd2len : (memWrite (memWrite cbE.data cb.end_pos (bytes.take (cbE.capacity - cb.end_pos)))
        0 (bytes.drop (cbE.capacity - cb.end_pos))).length = cbE.capacity := by
      rw [memWrite_length _ _ _ (by rw [hdlen, hd1len]; omega), hd1len]
    refine ⟨⟨?_, ?_, ?_, ?_, ?_, ?_, ?_⟩, ?_⟩
    · dsimp only
      rw [List.length_append, hlen, hEsz]
    · dsimp only
      exact hd2len
    · dsimp only
      omega
    · dsimp only
      right
      exact hspE
    · dsimp only
      rw [hEsz]
      unfold endOf
      rw [if_neg (by omega)]
      omega
    · dsimp only
      rw [hEsz]
      intro h
      omega
    · dsimp only
      rw [hEsz]
      intro i hi
      by_cases hio : i < cb.size
      · -- previously stored byte, untouched by both writes
        have hidx : idx cbE.start_pos i cbE.capacity = cbE.start_pos + i := by
          unfold idx
          rw [if_pos (by omega)]
        rw [hidx]
        rw [memWrite_getElem?_right _ _ _ _ (by rw [hdlen, hd1len]; omega) (by omega)]
        rw [memWrite_getElem?_left _ _ _ _ (by rw [htlen, hEdata]; omega) (by omega)]
        have hc := hEcontent i hio
        rw [hidx] at hc
        rw [hc, List.getElem?_append_left (by omega)]
      · -- newly appended byte number j = i - cb.size
        have hj : i - cb.size < bytes.length := by omega
        have happ : (l ++ bytes)[i]? = bytes[i - cb.size]? := by
          rw [List.getElem?_append_right (by omega), hlen]
        rw [happ]
        by_cases hsplit : cbE.start_pos + i < cbE.capacity
        · -- lands in the tail segment [end_pos, capacity)
          have hidx : idx cbE.start_pos i cbE.capacity = cbE.start_pos + i := by
            unfold idx
            rw [if_pos hsplit]
          rw [hidx]
          rw [memWrite_getElem?_right _ _ _ _ (by rw [hdlen, hd1len]; omega) (by omega)]
          rw [memWrite_getElem?_mid _ _ _ _ (by rw [htlen, hEdata]; omega) (by omega)
            (by rw [htlen]; omega)]
          rw [List.getElem?_take_of_lt (by omega)]
          congr 1
          omega
        · -- wraps to the front segment [0, loop_size)
          have hidx : idx cbE.start_pos i cbE.capacity = cbE.start_pos + i - cbE.capacity := by
            unfold idx
            rw [if_neg hsplit]
          rw [hidx]
          rw [memWrite_getElem?_mid _ _ _ _ (by rw [hdlen, hd1len]; omega) (by omega)
            (by rw [hdlen]; omega)]
          rw [List.getElem?_drop]
          congr 1
          omega
    · dsimp only
      exact hEcap1
  · -- the appended bytes fit without wrapping
    rw [if_neg hw]
    have hwle : cb.end_pos + bytes.length ≤ cbE.capacity := by omega
    have hdlen2 : (memWrite cbE.data cb.end_pos bytes).length = cbE.capacity := by
      rw [memWrite_length _ _ _ (by rw [hEdata]; omega), hEdata]
    refine ⟨⟨?_, ?_, ?_, ?_, ?_, ?_, ?_⟩, ?_⟩
    · dsimp only
      rw [List.length_append, hlen, hEsz]
    · dsimp only
      exact hdlen2
    · dsimp only
      omega
    · dsimp only
      exact hEspb
    · dsimp only
      rw [hEsz]
      unfold endOf at hepv ⊢
      split at hepv <;> split <;> omega
    · dsimp only
      rw [hEsz]
      intro h
      have h0 := hEzero' (by omega)
      constructor
      · exact h0.1
      · omega
    · dsimp only
      rw [hEsz]
      intro i hi
      -- where does the stored data sit?  split on whether it wraps
      by_cases hcw : cbE.start_pos + cb.size ≤ cbE.capacity
      · -- contiguous content at [start_pos, end_pos)
        have hepeq : cb.end_pos = cbE.start_pos + cb.size := by
          unfold endOf at hepv
          rw [if_pos hcw] at hepv
          exact hepv
        by_cases hio : i < cb.size
        · have hidx : idx cbE.start_pos i cbE.capacity = cbE.start_pos + i := by
            unfold idx
            rw [if_pos (by omega)]
          rw [hidx]
          rw [memWrite_getElem?_left _ _ _ _ (by rw [hEdata]; omega) (by omega)]
          have hc := hEcontent i hio
          rw [hidx] at hc
          rw [hc, List.getElem?_append_left (by omega)]
        · have hidx : idx cbE.start_pos i cbE.capacity = cbE.start_pos + i := by
            unfold idx
            rw [if_pos (by omega)]
          rw [hidx]
          rw [memWrite_getElem?_mid _ _ _ _ (by rw [hEdata]; omega) (by omega) (by omega)]
          rw [List.getElem?_append_right (by omega), hlen]
          congr 1
          omega
      · -- wrapped content: tail at [start_pos, capacity), head at [0, end_pos - k)
        have hepeq : cb.end_pos = cbE.start_pos + cb.size - cbE.capacity := by
          unfold endOf at hepv
          rw [if_neg hcw] at hepv
          exact hepv
        have hspE : cbE.start_pos < cbE.capacity := by
          rcases hEspb with h | h <;> omega
        by_cases hio : i < cb.size
        · by_cases hsplit : cbE.start_pos + i < cbE.capacity
          · have hidx : idx cbE.start_pos i cbE.capacity = cbE.start_pos + i := by
              unfold idx
              rw [if_pos hsplit]
            rw [hidx]
            rw [memWrite_getElem?_right _ _ _ _ (by rw [hEdata]; omega) (by omega)]
            have hc := hEcontent i hio
            rw [hidx] at hc
            rw [hc, List.getElem?_append_left (by omega)]
          · have hidx : idx cbE.start_pos i cbE.capacity = cbE.start_pos + i - cbE.capacity := by
              unfold idx
              rw [if_neg hsplit]
            rw [hidx]
            rw [memWrite_getElem?_left _ _ _ _ (by rw [hEdata]; omega) (by omega)]
            have hc := hEcontent i hio
            rw [hidx] at hc
            rw [hc, List.getElem?_append_left (by omega)]
        · have hidx : idx cbE.start_pos i cbE.capacity = cbE.start_pos + i - cbE.capacity := by
            unfold idx
            rw [if_neg (by omega)]
          rw [hidx]
          rw [memWrite_getElem?_mid _ _ _ _ (by rw [hEdata]; omega) (by omega) (by omega)]
          rw [List.getElem?_append_right (by omega), hlen]
          congr 1
          omega
    · dsimp only
      exact hEcap1

/-- `circlebuf_push_front` prepends its bytes to the logical content and never
shrinks the capacity. -/
theorem push_front_spec (cb : Circlebuf) (l bytes : List Nat) (hm : Models cb l) :
    Models (circlebuf_push_front cb bytes) (bytes ++ l) ∧
    cb.capacity ≤ (circlebuf_push_front cb bytes).capacity := by
  have hlen := hm.1
  obtain ⟨hEsz, hEep, hEcap1, hEcap2, hEgeom⟩ := ensure_after_bump cb l bytes.length hm
  obtain ⟨hEdata, hEos, hEspb, hEendOf, hEzero, hEcontent⟩ := hEgeom
  unfold circlebuf_push_front
  dsimp only
  set cbE := circlebuf_ensure_capacity { cb with size := cb.size + bytes.length } with hcbE
  have hepv : cb.end_pos = endOf cbE.start_pos cb.size cbE.capacity := by
    rw [← hEep]; exact hEendOf
  rw [hEsz]
  by_cases hs0 : cb.size = 0
  · -- previously empty: data is written at the very front
    rw [if_pos (by omega)]
    have hl : l = [] := List.length_eq_zero.mp (by omega)
    subst hl
    rw [List.append_nil]
    refine ⟨⟨?_, ?_, ?_, ?_, ?_, ?_, ?_⟩, ?_⟩
    · dsimp only
      omega
    · dsimp only
      rw [memWrite_length _ _ _ (by rw [hEdata]; omega), hEdata]
    · dsimp only
      omega
    · dsimp only
      omega
    · dsimp only
      unfold endOf
      rw [if_pos (by omega)]
      omega
    · dsimp only
      omega
    · dsimp only
      intro i hi
      have hidx : idx 0 i cbE.capacity = i := by
        unfold idx
        rw [if_pos (by omega)]
        omega
      rw [hidx]
      rw [memWrite_getElem?_mid _ _ _ _ (by rw [hEdata]; omega) (by omega) (by omega)]
      congr 1
    · dsimp only
      exact hEcap1
  · rw [if_neg (by omega)]
    have hcap0 : 0 < cbE.capacity := by omega
    have hspE : cbE.start_pos < cbE.capacity := by
      rcases hEspb with h | h <;> omega
    by_cases hb2 : cbE.start_pos < bytes.length
    · -- new bytes wrap around the front of the allocation
      rw [if_pos hb2]
      -- the stored content cannot wrap here
      have hnw : cb.end_pos = cbE.start_pos + cb.size := by
        unfold endOf at hepv
        rw [if_pos (by omega)] at hepv
        exact hepv
      have hkc : bytes.length < cbE.capacity := by omega
      have hdroplen : (bytes.drop (bytes.length - cbE.start_pos)).length = cbE.start_pos := by
        rw [List.length_drop]
        omega
      have htakelen : (bytes.take (bytes.length - cbE.start_pos)).length
          = bytes.length - cbE.start_pos := by
        rw [List.length_take]
        omega
      have hd1len : (memWrite cbE.data 0 (bytes.drop (bytes.length - cbE.start_pos))).length
          = cbE.capacity := by
        rw [memWrite_length _ _ _ (by rw [hdroplen, hEdata]; omega), hEdata]
      have hd2len : (memWrite (memWrite cbE.data 0 (bytes.drop (bytes.length - cbE.start_pos)))
          (cbE.capacity - (bytes.length - cbE.start_pos))
          (bytes.take (bytes.length - cbE.start_pos))).length = cbE.capacity := by
        rw [memWrite_length _ _ _ (by rw [htakelen, hd1len]; omega), hd1len]
      refine ⟨⟨?_, ?_, ?_, ?_, ?_, ?_, ?_⟩, ?_⟩
      · dsimp only
        rw [List.length_append, hlen]
        omega
      · dsimp only
        exact hd2len
      · dsimp only
        omega
      · dsimp only
        right
        omega
      · dsimp only
        unfold endOf
        rw [if_neg (by omega)]
        omega
      · dsimp only
        omega
      · dsimp only
        intro i hi
        by_cases hik : i < bytes.length
        · -- a newly prepended byte
          have hrhs : (bytes ++ l)[i]? = bytes[i]? := List.getElem?_append_left (by omega)
          rw [hrhs]
          by_cases hif : i < bytes.length - cbE.start_pos
          · -- lands at the back segment [capacity - back_size, capacity)
            have hidx : idx (cbE.capacity - (bytes.length - cbE.start_pos)) i cbE.capacity
                = cbE.capacity - (bytes.length - cbE.start_pos) + i := by
              unfold idx
              rw [if_pos (by omega)]
            rw [hidx]
            rw [memWrite_getElem?_mid _ _ _ _ (by rw [htakelen, hd1len]; omega) (by omega)
              (by rw [htakelen]; omega)]
            rw [List.getElem?_take_of_lt (by omega)]
            congr 1
            omega
          · -- wraps to the front segment [0, start_pos)
            have hidx : idx (cbE.capacity - (bytes.length - cbE.start_pos)) i cbE.capacity
                = i - (bytes.length - cbE.start_pos) := by
              unfold idx
              rw [if_neg (by omega)]
              omega
            rw [hidx]
            rw [memWrite_getElem?_left _ _ _ _ (by rw [htakelen, hd1len]; omega) (by omega)]
            rw [memWrite_getElem?_mid _ _ _ _ (by rw [hdroplen, hEdata]; omega) (by omega)
              (by rw [hdroplen]; omega)]
            rw [List.getElem?_drop]
            congr 1
            omega
        · -- a previously stored byte
          have hrhs : (bytes ++ l)[i]? = l[i - bytes.length]? := by
            rw [List.getElem?_append_right (by omega)]
          rw [hrhs]
          have hidx : idx (cbE.capacity - (bytes.length - cbE.start_pos)) i cbE.capacity
              = i - (bytes.length - cbE.start_pos) := by
            unfold idx
            rw [if_neg (by omega)]
            omega
          rw [hidx]
          rw [memWrite_getElem?_left _ _ _ _ (by rw [htakelen, hd1len]; omega) (by omega)]
          rw [memWrite_getElem?_right _ _ _ _ (by rw [hdroplen, hEdata]; omega) (by rw [hdroplen]; omega)]
          have hc := hEcontent (i - bytes.length) (by omega)
          have hidx2 : idx cbE.start_pos (i - bytes.length) cbE.capacity
              = i - (bytes.length - cbE.start_pos) := by
            unfold idx
            rw [if_pos (by omega)]
            omega
          rw [hidx2] at hc
          exact hc
      · dsimp only
        exact hEcap1
    · -- new bytes fit before start_pos without wrapping
      rw [if_neg hb2]
      refine ⟨⟨?_, ?_, ?_, ?_, ?_, ?_, ?_⟩, ?_⟩
      · dsimp only
        rw [List.length_append, hlen]
        omega
      · dsimp only
        rw [memWrite_length _ _ _ (by rw [hEdata]; omega), hEdata]
      · dsimp only
        omega
      · dsimp only
        right
        omega
      · dsimp only
        unfold endOf at hepv ⊢
        split at hepv <;> split <;> omega
      · dsimp only
        omega
      · dsimp only
        intro i hi
        by_cases hik : i < bytes.length
        · have hrhs : (bytes ++ l)[i]? = bytes[i]? := List.getElem?_append_left (by omega)
          rw [hrhs]
          have hidx : idx (cbE.start_pos - bytes.length) i cbE.capacity
              = cbE.start_pos - bytes.length + i := by
            unfold idx
            rw [if_pos (by omega)]
          rw [hidx]
          rw [memWrite_getElem?_mid _ _ _ _ (by rw [hEdata]; omega) (by omega) (by omega)]
          congr 1
          omega
        · have hrhs : (bytes ++ l)[i]? = l[i - bytes.length]? := by
            rw [List.getElem?_append_right (by omega)]
          rw [hrhs]
          have hc := hEcontent (i - bytes.length) (by omega)
          by_cases hsplit : cbE.start_pos + (i - bytes.length) < cbE.capacity
          · have hidx : idx (cbE.start_pos - bytes.length) i cbE.capacity
                = cbE.start_pos + i - bytes.length := by
              unfold idx
              rw [if_pos (by omega)]
              omega
            rw [hidx]
            rw [memWrite_getElem?_right _ _ _ _ (by rw [hEdata]; omega) (by omega)]
            have hidx2 : idx cbE.start_pos (i - bytes.length) cbE.capacity
                = cbE.start_pos + i - bytes.length := by
              unfold idx
              rw [if_pos (by omega)]
              omega
            rw [hidx2] at hc
            exact hc
          · have hidx : idx (cbE.start_pos - bytes.length) i cbE.capacity
                = cbE.start_pos + i - bytes.length - cbE.capacity := by
              unfold idx
              rw [if_neg (by omega)]
              omega
            rw [hidx]
            rw [memWrite_getElem?_left _ _ _ _ (by rw [hEdata]; omega) (by omega)]
            have hidx2 : idx cbE.start_pos (i - bytes.length) cbE.capacity
                = cbE.start_pos + i - bytes.length - cbE.capacity := by
              unfold idx
              rw [if_neg (by omega)]
              omega
            rw [hidx2] at hc
            exact hc
      · dsimp only
        exact hEcap1

/-- `circlebuf_peek_front` returns the first `n` stored bytes. -/
theorem peek_front_spec (cb : Circlebuf) (l : List Nat) (n : Nat) (hm : Models cb l)
    (hn : n ≤ cb.size) :
    circlebuf_peek_front cb n = l.take n := by
  obtain ⟨hlen, hdata, hos, hspb, hepv, hzero, hcontent⟩ := hm
  have hsple : cb.start_pos ≤ cb.capacity := by
    rcases hspb with h | h
    · have := hzero (by omega)
      omega
    · omega
  apply List.ext_getElem?
  intro j
  by_cases hj : j < n
  · have hcap0 : 0 < cb.capacity := by omega
    have hsp : cb.start_pos < cb.capacity := by
      rcases hspb with h | h <;> omega
    have hrhs : (l.take n)[j]? = l[j]? := List.getElem?_take_of_lt hj
    rw [hrhs]
    have hc := hcontent j (by omega)
    unfold circlebuf_peek_front
    dsimp only
    split_ifs with hss
    · -- the requested range wraps
      by_cases hjs : j < cb.capacity - cb.start_pos
      · rw [List.getElem?_append_left (by rw [memRead_length _ _ _ (by omega)]; omega)]
        rw [memRead_getElem? _ _ _ _ hjs]
        have hidx : idx cb.start_pos j cb.capacity = cb.start_pos + j := by
          unfold idx
          rw [if_pos (by omega)]
        rw [hidx] at hc
        exact hc
      · rw [List.getElem?_append_right (by rw [memRead_length _ _ _ (by omega)]; omega)]
        rw [memRead_length _ _ _ (by omega)]
        rw [memRead_getElem? _ _ _ _ (by omega)]
        have hidx : idx cb.start_pos j cb.capacity = cb.start_pos + j - cb.capacity := by
          unfold idx
          rw [if_neg (by omega)]
        rw [hidx] at hc
        rw [← hc]
        congr 1
        omega
    · -- contiguous read
      rw [memRead_getElem? _ _ _ _ hj]
      have hidx : idx cb.start_pos j cb.capacity = cb.start_pos + j := by
        unfold idx
        rw [if_pos (by omega)]
      rw [hidx] at hc
      exact hc
  · -- out of range on both sides
    have hrhs : (l.take n)[j]? = none := by
      rw [List.getElem?_eq_none_iff]
      rw [List.length_take]
      omega
    rw [hrhs, List.getElem?_eq_none_iff]
    unfold circlebuf_peek_front
    dsimp only
    split_ifs with hss
    · rw [List.length_append, memRead_length _ _ _ (by omega), memRead_length _ _ _ (by omega)]
      omega
    · rw [memRead_length _ _ _ (by omega)]
      omega

/-- `circlebuf_peek_back` returns the last `n` stored bytes. -/
theorem peek_back_spec (cb : Circlebuf) (l : List Nat) (n : Nat) (hm : Models cb l)
    (hn : n ≤ cb.size) :
    circlebuf_peek_back cb n = l.drop (l.length - n) := by
  obtain ⟨hlen, hdata, hos, hspb, hepv, hzero, hcontent⟩ := hm
  have hsple : cb.start_pos ≤ cb.capacity := by
    rcases hspb with h | h
    · have := hzero (by omega)
      omega
    · omega
  have heple : cb.end_pos ≤ cb.capacity := by
    unfold endOf at hepv
    split at hepv <;> omega
  apply List.ext_getElem?
  intro j
  by_cases hj : j < n
  · have hcap0 : 0 < cb.capacity := by omega
    have hsp : cb.start_pos < cb.capacity := by
      rcases hspb with h | h <;> omega
    have hsz0 : 0 < cb.size := by omega
    have hep1 : 0 < cb.end_pos := by
      unfold endOf at hepv
      split at hepv <;> omega
    have hrhs : (l.drop (l.length - n))[j]? = l[cb.size - n + j]? := by
      rw [List.getElem?_drop]
      congr 1
      omega
    rw [hrhs]
    have hc := hcontent (cb.size - n + j) (by omega)
    unfold circlebuf_peek_back
    dsimp only
    rw [if_pos (by omega : cb.end_pos ≠ 0)]
    split_ifs with hss
    · -- the requested range wraps
      have hwrap : ¬(cb.start_pos + cb.size ≤ cb.capacity) := by
        unfold endOf at hepv
        split at hepv <;> omega
      have hepw : cb.end_pos = cb.start_pos + cb.size - cb.capacity := by
        unfold endOf at hepv
        rw [if_neg hwrap] at hepv
        exact hepv
      by_cases hjs : j < n - cb.end_pos
      · rw [List.getElem?_append_left (by rw [memRead_length _ _ _ (by omega)]; omega)]
        rw [memRead_getElem? _ _ _ _ hjs]
        have hidx : idx cb.start_pos (cb.size - n + j) cb.capacity
            = cb.start_pos + (cb.size - n + j) := by
          unfold idx
          rw [if_pos (by omega)]
        rw [hidx] at hc
        rw [← hc]
        congr 1
        omega
      · rw [List.getElem?_append_right (by rw [memRead_length _ _ _ (by omega)]; omega)]
        rw [memRead_length _ _ _ (by omega)]
        rw [memRead_getElem? _ _ _ _ (by omega)]
        have hidx : idx cb.start_pos (cb.size - n + j) cb.capacity
            = cb.start_pos + (cb.size - n + j) - cb.capacity := by
          unfold idx
          rw [if_neg (by omega)]
        rw [hidx] at hc
        rw [← hc]
        congr 1
        omega
    · -- contiguous read ending at end_pos
      rw [memRead_getElem? _ _ _ _ hj]
      unfold endOf at hepv
      by_cases hwrap : cb.start_pos + cb.size ≤ cb.capacity
      · rw [if_pos hwrap] at hepv
        have hidx : idx cb.start_pos (cb.size - n + j) cb.capacity
            = cb.start_pos + (cb.size - n + j) := by
          unfold idx
          rw [if_pos (by omega)]
        rw [hidx] at hc
        rw [← hc]
        congr 1
        omega
      · rw [if_neg hwrap] at hepv
        have hidx : idx cb.start_pos (cb.size - n + j) cb.capacity
            = cb.start_pos + (cb.size - n + j) - cb.capacity := by
          unfold idx
          rw [if_neg (by omega)]
        rw [hidx] at hc
        rw [← hc]
        congr 1
        omega
  · -- out of range on both sides
    have hrhs : (l.drop (l.length - n))[j]? = none := by
      rw [List.getElem?_eq_none_iff, List.length_drop]
      omega
    rw [hrhs, List.getElem?_eq_none_iff]
    unfold circlebuf_peek_back
    dsimp only
    split_ifs with hb hss hss
    · rw [List.length_append, memRead_length _ _ _ (by omega), memRead_length _ _ _ (by omega)]
      omega
    · rw [memRead_length _ _ _ (by omega)]
      omega
    · rw [List.length_append, memRead_length _ _ _ (by omega), memRead_length _ _ _ (by omega)]
      omega
    · rw [memRead_length _ _ _ (by omega)]
      omega

/-- `circlebuf_pop_front` returns the first `n` bytes and removes them. -/
theorem pop_front_spec (cb : Circlebuf) (l : List Nat) (n : Nat) (hm : Models cb l)
    (hn : n ≤ cb.size) :
    (circlebuf_pop_front cb n).1 = l.take n ∧
    Models (circlebuf_pop_front cb n).2 (l.drop n) ∧
    (circlebuf_pop_front cb n).2.capacity = cb.capacity := by
  have hpeek := peek_front_spec cb l n hm hn
  obtain ⟨hlen, hdata, hos, hspb, hepv, hzero, hcontent⟩ := hm
  unfold circlebuf_pop_front
  dsimp only
  by_cases h0 : cb.size - n = 0
  · rw [if_pos h0]
    refine ⟨hpeek, ⟨?_, ?_, ?_, ?_, ?_, ?_, ?_⟩, rfl⟩
    · dsimp only
      rw [List.length_drop]
      omega
    · dsimp only
      exact hdata
    · dsimp only
      omega
    · dsimp only
      omega
    · dsimp only
      unfold endOf
      rw [if_pos (by omega)]
      omega
    · dsimp only
      exact fun _ => ⟨rfl, rfl⟩
    · dsimp only
      intro i hi
      omega
  · rw [if_neg h0]
    have hcap0 : 0 < cb.capacity := by omega
    have hsp : cb.start_pos < cb.capacity := by
      rcases hspb with h | h <;> omega
    have hcont2 : ∀ sp', sp' = idx cb.start_pos n cb.capacity →
        (∀ i, i < cb.size - n → cb.data[idx sp' i cb.capacity]? = (l.drop n)[i]?) := by
      intro sp' hsp' i hi
      have hc := hcontent (n + i) (by omega)
      have hrhs : (l.drop n)[i]? = l[n + i]? := List.getElem?_drop l n i
      rw [hrhs, ← hc]
      congr 1
      unfold idx at hsp' ⊢
      split_ifs at hsp' ⊢ <;> omega
    by_cases hspn : cb.start_pos + n ≥ cb.capacity
    · rw [if_pos hspn]
      refine ⟨hpeek, ⟨?_, ?_, ?_, ?_, ?_, ?_, ?_⟩, rfl⟩
      · dsimp only
        rw [List.length_drop]
        omega
      · dsimp only
        exact hdata
      · dsimp only
        omega
      · dsimp only
        right
        omega
      · dsimp only
        unfold endOf at hepv ⊢
        split at hepv <;> split <;> omega
      · dsimp only
        intro h
        omega
      · dsimp only
        refine hcont2 _ ?_
        unfold idx
        rw [if_neg (by omega)]
    · rw [if_neg hspn]
      refine ⟨hpeek, ⟨?_, ?_, ?_, ?_, ?_, ?_, ?_⟩, rfl⟩
      · dsimp only
        rw [List.length_drop]
        omega
      · dsimp only
        exact hdata
      · dsimp only
        omega
      · dsimp only
        right
        omega
      · dsimp only
        unfold endOf at hepv ⊢
        split at hepv <;> split <;> omega
      · dsimp only
        intro h
        omega
      · dsimp only
        refine hcont2 _ ?_
        unfold idx
        rw [if_pos (by omega)]

/-- `circlebuf_pop_back` returns the last `n` bytes and removes them. -/
theorem pop_back_spec (cb : Circlebuf) (l : List Nat) (n : Nat) (hm : Models cb l)
    (hn : n ≤ cb.size) :
    (circlebuf_pop_back cb n).1 = l.drop (l.length - n) ∧
    Models (circlebuf_pop_back cb n).2 (l.take (l.length - n)) ∧
    (circlebuf_pop_back cb n).2.capacity = cb.capacity := by
  have hpeek := peek_back_spec cb l n hm hn
  obtain ⟨hlen, hdata, hos, hspb, hepv, hzero, hcontent⟩ := hm
  unfold circlebuf_pop_back
  dsimp only
  by_cases h0 : cb.size - n = 0
  · rw [if_pos h0]
    refine ⟨hpeek, ⟨?_, ?_, ?_, ?_, ?_, ?_, ?_⟩, rfl⟩
    · dsimp only
      rw [List.length_take]
      omega
    · dsimp only
      exact hdata
    · dsimp only
      omega
    · dsimp only
      omega
    · dsimp only
      unfold endOf
      rw [if_pos (by omega)]
      omega
    · dsimp only
      exact fun _ => ⟨rfl, rfl⟩
    · dsimp only
      intro i hi
      omega
  · rw [if_neg h0]
    have hcap0 : 0 < cb.capacity := by omega
    have hsp : cb.start_pos < cb.capacity := by
      rcases hspb with h | h <;> omega
    have hcont2 : ∀ i, i < cb.size - n →
        cb.data[idx cb.start_pos i cb.capacity]? = (l.take (l.length - n))[i]? := by
      intro i hi
      rw [List.getElem?_take_of_lt (by omega)]
      exact hcontent i (by omega)
    have hlen2 : (l.take (l.length - n)).length = cb.size - n := by
      rw [List.length_take]
      omega
    by_cases hev : cb.end_pos ≤ n
    · rw [if_pos hev]
      refine ⟨hpeek, ⟨?_, ?_, ?_, ?_, ?_, ?_, ?_⟩, rfl⟩
      · dsimp only
        exact hlen2
      · dsimp only
        exact hdata
      · dsimp only
        omega
      · dsimp only
        exact hspb
      · dsimp only
        unfold endOf at hepv ⊢
        split at hepv <;> split <;> omega
      · dsimp only
        intro h
        omega
      · dsimp only
        exact hcont2
    · rw [if_neg hev]
      refine ⟨hpeek, ⟨?_, ?_, ?_, ?_, ?_, ?_, ?_⟩, rfl⟩
      · dsimp only
        exact hlen2
      · dsimp only
        exact hdata
      · dsimp only
        omega
      · dsimp only
        exact hspb
      · dsimp only
        unfold endOf at hepv ⊢
        split at hepv <;> split <;> omega
      · dsimp only
        intro h
        omega
      · dsimp only
        exact hcont2

/-- `circlebuf_reserve` never changes the content; the capacity becomes
`max` of the old capacity and the request. -/
theorem reserve_spec (cb : Circlebuf) (l : List Nat) (c : Nat) (hm : Models cb l) :
    Models (circlebuf_reserve cb c) l ∧
    (circlebuf_reserve cb c).capacity = max cb.capacity c := by
  unfold circlebuf_reserve
  by_cases h : c ≤ cb.capacity
  · rw [if_pos h]
    exact ⟨hm, by omega⟩
  · rw [if_neg h]
    obtain ⟨hcap, hsz, hep, hgeom⟩ := growTo_spec cb cb.size l c hm.2 (Nat.le_refl _) (by omega)
    refine ⟨⟨?_, ?_⟩, by omega⟩
    · rw [hsz]
      exact hm.1
    · rw [hsz]
      exact hgeom

/-- `circlebuf_data` returns `none` exactly for out-of-range indices, and
otherwise the physical offset `(start_pos + idx) mod capacity` of the
requested logical byte. -/
theorem data_spec (cb : Circlebuf) (l : List Nat) (i : Nat) (hm : Models cb l) :
    (circlebuf_data cb i = none ↔ cb.size ≤ i) ∧
    (i < cb.size → ∃ off, circlebuf_data cb i = some off ∧
      off = (cb.start_pos + i) % cb.capacity ∧ cb.data[off]? = l[i]?) := by
  obtain ⟨hlen, hdata, hos, hspb, hepv, hzero, hcontent⟩ := hm
  unfold circlebuf_data
  dsimp only
  by_cases h : i ≥ cb.size
  · rw [if_pos h]
    exact ⟨⟨fun _ => h, fun _ => rfl⟩, fun hlt => absurd hlt (by omega)⟩
  · rw [if_neg h]
    have hcap0 : 0 < cb.capacity := by omega
    have hsp : cb.start_pos < cb.capacity := by
      rcases hspb with hx | hx <;> omega
    have hc := hcontent i (by omega)
    constructor
    · constructor
      · intro hcontra
        exact absurd hcontra (by split <;> simp)
      · intro hcontra
        omega
    · intro _
      by_cases hoff : cb.start_pos + i ≥ cb.capacity
      · rw [if_pos hoff]
        refine ⟨_, rfl, ?_, ?_⟩
        · rw [Nat.mod_eq_sub_mod hoff, Nat.mod_eq_of_lt (by omega)]
        · have hidx : idx cb.start_pos i cb.capacity = cb.start_pos + i - cb.capacity := by
            unfold idx
            rw [if_neg (by omega)]
          rw [hidx] at hc
          exact hc
      · rw [if_neg hoff]
        refine ⟨_, rfl, ?_, ?_⟩
        · rw [Nat.mod_eq_of_lt (by omega)]
        · have hidx : idx cb.start_pos i cb.capacity = cb.start_pos + i := by
            unfold idx
            rw [if_pos (by omega)]
          rw [hidx] at hc
          exact hc

/-- `circlebuf_push_back_zero` is `circlebuf_push_back` of a block of zeros. -/
theorem push_back_zero_eq (cb : Circlebuf) (k : Nat) (l : List Nat) (hm : Models cb l) :
    circlebuf_push_back_zero cb k = circlebuf_push_back cb (List.replicate k 0) := by
  obtain ⟨hEsz, hEep, hEcap1, hEcap2, hEgeom⟩ := ensure_after_bump cb l k hm
  obtain ⟨hEdata, hEos, hEspb, hEendOf, hEzero, hEcontent⟩ := hEgeom
  unfold circlebuf_push_back_zero circlebuf_push_back
  dsimp only
  rw [List.length_replicate]
  set cbE := circlebuf_ensure_capacity { cb with size := cb.size + k } with hcbE
  have heple : cb.end_pos ≤ cbE.capacity := by
    have h1 := hEendOf
    unfold endOf at h1
    rcases hEspb with h | h
    · have h0 := hEzero (by omega)
      omega
    · split at h1 <;> omega
  rw [List.take_replicate, List.drop_replicate]
  split_ifs with hw
  · rw [Nat.min_eq_left (by omega)]
  · rfl

/-- `circlebuf_push_front_zero` is `circlebuf_push_front` of a block of zeros. -/
theorem push_front_zero_eq (cb : Circlebuf) (k : Nat) :
    circlebuf_push_front_zero cb k = circlebuf_push_front cb (List.replicate k 0) := by
  unfold circlebuf_push_front_zero circlebuf_push_front
  dsimp only
  rw [List.length_replicate]
  set cbE := circlebuf_ensure_capacity { cb with size := cb.size + k } with hcbE
  rw [List.take_replicate, List.drop_replicate]
  split_ifs with h1 h2
  · rfl
  · rw [Nat.min_eq_left (by omega), show k - (k - cbE.start_pos) = cbE.start_pos by omega]
  · rfl

/-- `circlebuf_upsize` to a strictly larger size is a zero push at the back. -/
theorem upsize_eq (cb : Circlebuf) (sz : Nat) (h : cb.size < sz) :
    circlebuf_upsize cb sz = circlebuf_push_back_zero cb (sz - cb.size) := by
  unfold circlebuf_upsize circlebuf_push_back_zero
  rw [if_neg (by omega)]
  dsimp only
  rw [show cb.size + (sz - cb.size) = sz from by omega]

/-- `circlebuf_upsize` with a size not larger than the current one is a no-op. -/
theorem upsize_noop (cb : Circlebuf) (sz : Nat) (h : sz ≤ cb.size) :
    circlebuf_upsize cb sz = cb := by
  unfold circlebuf_upsize
  rw [if_pos h]

/-- `circlebuf_upsize` zero-fills the buffer up to the new size. -/
theorem upsize_spec (cb : Circlebuf) (l : List Nat) (sz : Nat) (hm : Models cb l)
    (h : cb.size < sz) :
    Models (circlebuf_upsize cb sz) (l ++ List.replicate (sz - cb.size) 0) ∧
    cb.capacity ≤ (circlebuf_upsize cb sz).capacity := by
  rw [upsize_eq cb sz h, push_back_zero_eq cb (sz - cb.size) l hm]
  exact push_back_spec cb l (List.replicate (sz - cb.size) 0) hm

/-- `circlebuf_place` first grows (zero-filling) to cover `[position, position+size)`
and then overwrites that logical range with the given bytes, leaving
everything else unchanged. -/
theorem place_spec (cb : Circlebuf) (l bytes : List Nat) (pos : Nat) (hm : Models cb l) :
    Models (circlebuf_place cb pos bytes)
      (memWrite (l ++ List.replicate (pos + bytes.length - cb.size) 0) pos bytes) ∧
    (circlebuf_place cb pos bytes).size = max cb.size (pos + bytes.length) ∧
    cb.capacity ≤ (circlebuf_place cb pos bytes).capacity := by
  have hlen := hm.1
  unfold circlebuf_place
  dsimp only
  set G := l ++ List.replicate (pos + bytes.length - cb.size) 0 with hGdef
  set cbU := if pos + bytes.length > cb.size then circlebuf_upsize cb (pos + bytes.length) else cb
    with hcbU
  have hstep : Models cbU G ∧ cb.capacity ≤ cbU.capacity := by
    rw [hcbU]
    by_cases hgrow : pos + bytes.length > cb.size
    · rw [if_pos hgrow]
      exact upsize_spec cb l (pos + bytes.length) hm (by omega)
    · rw [if_neg hgrow]
      have hG : G = l := by
        rw [hGdef, show pos + bytes.length - cb.size = 0 from by omega]
        simp
      rw [hG]
      exact ⟨hm, Nat.le_refl _⟩
  obtain ⟨⟨hlenU, hdataU, hosU, hspbU, hepvU, hzeroU, hcontentU⟩, hcapU⟩ := hstep
  have hGlen : G.length = max cb.size (pos + bytes.length) := by
    rw [hGdef, List.length_append, List.length_replicate]
    omega
  have hSU : cbU.size = max cb.size (pos + bytes.length) := by
    rw [← hlenU, hGlen]
  have hposk : pos + bytes.length ≤ cbU.size := by omega
  have hwG : pos + bytes.length ≤ G.length := by omega
  -- the rewritten logical content
  have hrhs_len : (memWrite G pos bytes).length = G.length := memWrite_length _ _ _ hwG
  by_cases hcap00 : cbU.capacity = 0
  · -- degenerate empty buffer: nothing is stored and nothing is written
    have hS0 : cbU.size = 0 := by omega
    have hz := hzeroU hS0
    have hb0 : bytes.length = 0 := by omega
    have hp0 : pos = 0 := by omega
    split_ifs with h1 h2 h2
    · exact absurd h2 (by omega)
    · refine ⟨⟨?_, ?_, ?_, ?_, ?_, ?_, ?_⟩, ?_, ?_⟩
      · dsimp only
        rw [hrhs_len, hGlen, hSU]
      · dsimp only
        rw [memWrite_length _ _ _ (by rw [hdataU]; omega), hdataU]
      · dsimp only
        exact hosU
      · dsimp only
        exact hspbU
      · dsimp only
        exact hepvU
      · dsimp only
        exact hzeroU
      · dsimp only
        intro i hi
        omega
      · dsimp only
        rw [hSU]
      · dsimp only
        exact hcapU
    · exact absurd (show pos + cbU.start_pos ≥ cbU.capacity from by omega) h1
    · exact absurd (show pos + cbU.start_pos ≥ cbU.capacity from by omega) h1
  have hcap0 : 0 < cbU.capacity := by omega
  by_cases hpp : pos + cbU.start_pos ≥ cbU.capacity
  · -- the write starts in the wrapped-around region; it cannot wrap again
    rw [if_pos hpp]
    have hspU : cbU.start_pos < cbU.capacity := by
      rcases hspbU with h | h <;> omega
    have hnw : pos + cbU.start_pos - cbU.capacity + bytes.length ≤ cbU.start_pos := by
      omega
    rw [if_neg (by omega)]
    refine ⟨⟨?_, ?_, ?_, ?_, ?_, ?_, ?_⟩, ?_, ?_⟩
    · dsimp only
      rw [hrhs_len, hGlen, hSU]
    · dsimp only
      rw [memWrite_length _ _ _ (by rw [hdataU]; omega), hdataU]
    · dsimp only
      exact hosU
    · dsimp only
      exact hspbU
    · dsimp only
      exact hepvU
    · dsimp only
      exact hzeroU
    · dsimp only
      intro i hi
      by_cases hin : pos ≤ i ∧ i < pos + bytes.length
      · rw [memWrite_getElem?_mid _ _ _ _ hwG hin.1 hin.2]
        have hidx : idx cbU.start_pos i cbU.capacity
            = pos + cbU.start_pos - cbU.capacity + (i - pos) := by
          unfold idx
          rw [if_neg (by omega)]
          omega
        rw [hidx]
        rw [memWrite_getElem?_mid _ _ _ _ (by rw [hdataU]; omega) (by omega) (by omega)]
        congr 1
        omega
      · have hc := hcontentU i hi
        by_cases hlo : i < pos
        · rw [memWrite_getElem?_left _ _ _ _ hwG hlo, ← hc]
          by_cases hsplit : cbU.start_pos + i < cbU.capacity
          · have hidx : idx cbU.start_pos i cbU.capacity = cbU.start_pos + i := by
              unfold idx
              rw [if_pos hsplit]
            rw [hidx]
            rw [memWrite_getElem?_right _ _ _ _ (by rw [hdataU]; omega) (by omega)]
          · have hidx : idx cbU.start_pos i cbU.capacity = cbU.start_pos + i - cbU.capacity := by
              unfold idx
              rw [if_neg hsplit]
            rw [hidx]
            rw [memWrite_getElem?_left _ _ _ _ (by rw [hdataU]; omega) (by omega)]
        · have hhi : pos + bytes.length ≤ i := by omega
          rw [memWrite_getElem?_right _ _ _ _ hwG hhi, ← hc]
          have hidx : idx cbU.start_pos i cbU.capacity = cbU.start_pos + i - cbU.capacity := by
            unfold idx
            rw [if_neg (by omega)]
          rw [hidx]
          rw [memWrite_getElem?_right _ _ _ _ (by rw [hdataU]; omega) (by omega)]
    · dsimp only
      rw [hSU]
    · dsimp only
      exact hcapU
  · -- the write starts in the contiguous region [start_pos, capacity)
    rw [if_neg hpp]
    by_cases hw : pos + cbU.start_pos + bytes.length > cbU.capacity
    · -- and wraps around the end of the allocation
      rw [if_pos hw]
      have hcap0 : 0 < cbU.capacity := by omega
      have hspU : cbU.start_pos < cbU.capacity := by
        rcases hspbU with h | h <;> omega
      have htl : (bytes.take (bytes.length - (pos + cbU.start_pos + bytes.length - cbU.capacity))).length
          = cbU.capacity - (pos + cbU.start_pos) := by
        rw [List.length_take]
        omega
      have hd1l : (memWrite cbU.data (pos + cbU.start_pos)
          (bytes.take (bytes.length - (pos + cbU.start_pos + bytes.length - cbU.capacity)))).length
          = cbU.capacity := by
        rw [memWrite_length _ _ _ (by rw [htl, hdataU]; omega), hdataU]
      have hdl : (bytes.drop (bytes.length - (pos + cbU.start_pos + bytes.length - cbU.capacity))).length
          = pos + cbU.start_pos + bytes.length - cbU.capacity := by
        rw [List.length_drop]
        omega
      refine ⟨⟨?_, ?_, ?_, ?_, ?_, ?_, ?_⟩, ?_, ?_⟩
      · dsimp only
        rw [hrhs_len, hGlen, hSU]
      · dsimp only
        rw [memWrite_length _ _ _ (by rw [hdl, hd1l]; omega), hd1l]
      · dsimp only
        exact hosU
      · dsimp only
        exact hspbU
      · dsimp only
        exact hepvU
      · dsimp only
        exact hzeroU
      · dsimp only
        intro i hi
        by_cases hin : pos ≤ i ∧ i < pos + bytes.length
        · rw [memWrite_getElem?_mid _ _ _ _ hwG hin.1 hin.2]
          by_cases hsplit : cbU.start_pos + i < cbU.capacity
          · -- overwritten byte in the tail segment
            have hidx : idx cbU.start_pos i cbU.capacity = pos + cbU.start_pos + (i - pos) := by
              unfold idx
              rw [if_pos hsplit]
              omega
            rw [hidx]
            rw [memWrite_getElem?_right _ _ _ _ (by rw [hdl, hd1l]; omega) (by rw [hdl]; omega)]
            rw [memWrite_getElem?_mid _ _ _ _ (by rw [htl, hdataU]; omega) (by omega)
              (by rw [htl]; omega)]
            rw [List.getElem?_take_of_lt (by omega)]
            congr 1
            omega
          · -- overwritten byte in the wrapped front segment
            have hidx : idx cbU.start_pos i cbU.capacity
                = pos + cbU.start_pos + (i - pos) - cbU.capacity := by
              unfold idx
              rw [if_neg hsplit]
              omega
            rw [hidx]
            rw [memWrite_getElem?_mid _ _ _ _ (by rw [hdl, hd1l]; omega) (by omega)
              (by rw [hdl]; omega)]
            rw [List.getElem?_drop]
            congr 1
            omega
        · have hc := hcontentU i hi
          by_cases hlo : i < pos
          · rw [memWrite_getElem?_left _ _ _ _ hwG hlo, ← hc]
            have hidx : idx cbU.start_pos i cbU.capacity = cbU.start_pos + i := by
              unfold idx
              rw [if_pos (by omega)]
            rw [hidx]
            rw [memWrite_getElem?_right _ _ _ _ (by rw [hdl, hd1l]; omega) (by rw [hdl]; omega)]
            rw [memWrite_getElem?_left _ _ _ _ (by rw [htl, hdataU]; omega) (by omega)]
          · have hhi : pos + bytes.length ≤ i := by omega
            rw [memWrite_getElem?_right _ _ _ _ hwG hhi, ← hc]
            have hidx : idx cbU.start_pos i cbU.capacity = cbU.start_pos + i - cbU.capacity := by
              unfold idx
              rw [if_neg (by omega)]
            rw [hidx]
            rw [memWrite_getElem?_right _ _ _ _ (by rw [hdl, hd1l]; omega) (by rw [hdl]; omega)]
            rw [memWrite_getElem?_left _ _ _ _ (by rw [htl, hdataU]; omega) (by omega)]
      · dsimp only
        rw [hSU]
      · dsimp only
        exact hcapU
    · -- single contiguous write
      rw [if_neg hw]
      refine ⟨⟨?_, ?_, ?_, ?_, ?_, ?_, ?_⟩, ?_, ?_⟩
      · dsimp only
        rw [hrhs_len, hGlen, hSU]
      · dsimp only
        rw [memWrite_length _ _ _ (by rw [hdataU]; omega), hdataU]
      · dsimp only
        exact hosU
      · dsimp only
        exact hspbU
      · dsimp only
        exact hepvU
      · dsimp only
        exact hzeroU
      · dsimp only
        intro i hi
        by_cases hin : pos ≤ i ∧ i < pos + bytes.length
        · rw [memWrite_getElem?_mid _ _ _ _ hwG hin.1 hin.2]
          have hidx : idx cbU.start_pos i cbU.capacity = pos + cbU.start_pos + (i - pos) := by
            unfold idx
            rw [if_pos (by omega)]
            omega
          rw [hidx]
          rw [memWrite_getElem?_mid _ _ _ _ (by rw [hdataU]; omega) (by omega) (by omega)]
          congr 1
          omega
        · have hc := hcontentU i hi
          by_cases hlo : i < pos
          · rw [memWrite_getElem?_left _ _ _ _ hwG hlo, ← hc]
            by_cases hsplit : cbU.start_pos + i < cbU.capacity
            · have hidx : idx cbU.start_pos i cbU.capacity = cbU.start_pos + i := by
                unfold idx
                rw [if_pos hsplit]
              rw [hidx]
              rw [memWrite_getElem?_left _ _ _ _ (by rw [hdataU]; omega) (by omega)]
            · have hidx : idx cbU.start_pos i cbU.capacity = cbU.start_pos + i - cbU.capacity := by
                unfold idx
                rw [if_neg hsplit]
              rw [hidx]
              rw [memWrite_getElem?_left _ _ _ _ (by rw [hdataU]; omega) (by omega)]
          · have hhi : pos + bytes.length ≤ i := by omega
            rw [memWrite_getElem?_right _ _ _ _ hwG hhi, ← hc]
            by_cases hsplit : cbU.start_pos + i < cbU.capacity
            · have hidx : idx cbU.start_pos i cbU.capacity = cbU.start_pos + i := by
                unfold idx
                rw [if_pos hsplit]
              rw [hidx]
              rw [memWrite_getElem?_right _ _ _ _ (by rw [hdataU]; omega) (by omega)]
            · have hidx : idx cbU.start_pos i cbU.capacity = cbU.start_pos + i - cbU.capacity := by
                unfold idx
                rw [if_neg hsplit]
              rw [hidx]
              rw [memWrite_getElem?_left _ _ _ _ (by rw [hdataU]; omega) (by omega)]
      · dsimp only
        rw [hSU]
      · dsimp only
        exact hcapU

/-- One legal operation refines the abstract list model. -/
theorem execOp_spec (cb : Circlebuf) (l : List Nat) (op : BufOp) (hm : Models cb l)
    (hok : opOk l op = true) :
    (execOp cb op).1 = (specOp l op).1 ∧ Models (execOp cb op).2 (specOp l op).2 := by
  cases op with
  | pushBack b => exact ⟨rfl, (push_back_spec cb l b hm).1⟩
  | pushFront b => exact ⟨rfl, (push_front_spec cb l b hm).1⟩
  | popFront n =>
    have hn : n ≤ cb.size := by
      have h := of_decide_eq_true hok
      have h2 := hm.1
      omega
    obtain ⟨h1, h2, _⟩ := pop_front_spec cb l n hm hn
    exact ⟨h1, h2⟩
  | popBack n =>
    have hn : n ≤ cb.size := by
      have h := of_decide_eq_true hok
      have h2 := hm.1
      omega
    obtain ⟨h1, h2, _⟩ := pop_back_spec cb l n hm hn
    exact ⟨h1, h2⟩
  | peekFront n =>
    have hn : n ≤ cb.size := by
      have h := of_decide_eq_true hok
      have h2 := hm.1
      omega
    exact ⟨peek_front_spec cb l n hm hn, hm⟩
  | peekBack n =>
    have hn : n ≤ cb.size := by
      have h := of_decide_eq_true hok
      have h2 := hm.1
      omega
    exact ⟨peek_back_spec cb l n hm hn, hm⟩

/-- A legal operation sequence produces exactly the outputs of the abstract
list model and ends in a buffer that still models the abstract state. -/
theorem execOps_spec (ops : List BufOp) : ∀ (cb : Circlebuf) (l : List Nat),
    Models cb l → legal l ops = true →
    (execOps cb ops).1 = (specOps l ops).1 ∧
    Models (execOps cb ops).2 (specOps l ops).2 := by
  induction ops with
  | nil =>
    intro cb l hm _
    exact ⟨rfl, hm⟩
  | cons op ops ih =>
    intro cb l hm hleg
    have hleg' : opOk l op = true ∧ legal (specOp l op).2 ops = true := by
      rw [legal, Bool.and_eq_true] at hleg
      exact hleg
    have hstep := execOp_spec cb l op hm hleg'.1
    have hrec := ih (execOp cb op).2 (specOp l op).2 hstep.2 hleg'.2
    unfold execOps specOps
    dsimp only
    exact ⟨by rw [hstep.1, hrec.1], hrec.2⟩

/-- Size accounting in the abstract model: final length + popped = initial
length + pushed (peeks contribute nothing). -/
theorem specOps_length (ops : List BufOp) : ∀ l : List Nat, legal l ops = true →
    (specOps l ops).2.length + poppedBytes ops = l.length + pushedBytes ops := by
  induction ops with
  | nil =>
    intro l _
    rfl
  | cons op ops ih =>
    intro l hleg
    have hleg' : opOk l op = true ∧ legal (specOp l op).2 ops = true := by
      rw [legal, Bool.and_eq_true] at hleg
      exact hleg
    have hrec := ih (specOp l op).2 hleg'.2
    unfold specOps
    dsimp only
    cases op with
    | pushBack b =>
      unfold specOp at hrec ⊢
      unfold pushedBytes poppedBytes
      rw [List.length_append] at hrec
      omega
    | pushFront b =>
      unfold specOp at hrec ⊢
      unfold pushedBytes poppedBytes
      rw [List.length_append] at hrec
      omega
    | popFront n =>
      have hn := of_decide_eq_true hleg'.1
      unfold specOp at hrec ⊢
      unfold pushedBytes poppedBytes
      rw [List.length_drop] at hrec
      omega
    | popBack n =>
      have hn := of_decide_eq_true hleg'.1
      unfold specOp at hrec ⊢
      unfold pushedBytes poppedBytes
      rw [List.length_take] at hrec
      omega
    | peekFront n =>
      simp only [specOp] at hrec ⊢
      unfold pushedBytes poppedBytes
      omega
    | peekBack n =>
      simp only [specOp] at hrec ⊢
      unfold pushedBytes poppedBytes
      omega

theorem models_safeInv (cb : Circlebuf) (l : List Nat) (hm : Models cb l) : SafeInv cb :=
  ⟨hm.2.2.1, hm.2.2.2.2.2.1⟩

/-- C1: for every sequence of ring-buffer operations starting from an
initialized buffer in which every peek/pop requests at most the current size,
the copied-out bytes are exactly those of the abstract list model (pop/peek
front reads the oldest bytes first — FIFO; pop/peek back reads the newest
bytes first — LIFO), and the final `size` field equals total bytes pushed
minus total bytes popped. -/
theorem claim_C1_ringbuffer_fifo_lifo (ops : List BufOp) (h : legal [] ops = true) :
    (execOps circlebuf_init ops).1 = (specOps [] ops).1 ∧
    (execOps circlebuf_init ops).2.size + poppedBytes ops = pushedBytes ops ∧
    (execOps circlebuf_init ops).2.size = pushedBytes ops - poppedBytes ops := by
  have h1 := execOps_spec ops circlebuf_init [] models_init h
  have h2 := specOps_length ops [] h
  have h3 := h1.2.1
  rw [List.length_nil] at h2
  exact ⟨h1.1, by omega, by omega⟩

/-- C1 witness: a concrete sequence with growth, wraparound and both ends. -/
theorem claim_C1_witness :
    (execOps circlebuf_init opsW).1 = (specOps [] opsW).1 ∧
    (execOps circlebuf_init opsW).2.size + poppedBytes opsW = pushedBytes opsW ∧
    (execOps circlebuf_init opsW).2.size = pushedBytes opsW - poppedBytes opsW :=
  claim_C1_ringbuffer_fifo_lifo opsW (by decide)

/-- C2: on any buffer satisfying the representation invariant, every
ring-buffer operation (under the peek/pop size precondition) preserves
`size ≤ capacity` and `size = 0 → start_pos = end_pos = 0`, and no operation
decreases the `capacity` field. -/
theorem claim_C2_invariants (cb : Circlebuf) (l : List Nat) (hm : Models cb l) :
    SafeInv cb ∧
    (∀ bytes, SafeInv (circlebuf_push_back cb bytes) ∧
      cb.capacity ≤ (circlebuf_push_back cb bytes).capacity) ∧
    (∀ bytes, SafeInv (circlebuf_push_front cb bytes) ∧
      cb.capacity ≤ (circlebuf_push_front cb bytes).capacity) ∧
    (∀ k, SafeInv (circlebuf_push_back_zero cb k) ∧
      cb.capacity ≤ (circlebuf_push_back_zero cb k).capacity) ∧
    (∀ k, SafeInv (circlebuf_push_front_zero cb k) ∧
      cb.capacity ≤ (circlebuf_push_front_zero cb k).capacity) ∧
    (∀ n, n ≤ cb.size → SafeInv (circlebuf_pop_front cb n).2 ∧
      cb.capacity ≤ (circlebuf_pop_front cb n).2.capacity) ∧
    (∀ n, n ≤ cb.size → SafeInv (circlebuf_pop_back cb n).2 ∧
      cb.capacity ≤ (circlebuf_pop_back cb n).2.capacity) ∧
    (∀ c, SafeInv (circlebuf_reserve cb c) ∧
      cb.capacity ≤ (circlebuf_reserve cb c).capacity) ∧
    (∀ sz, SafeInv (circlebuf_upsize cb sz) ∧
      cb.capacity ≤ (circlebuf_upsize cb sz).capacity) ∧
    (∀ pos bytes, SafeInv (circlebuf_place cb pos bytes) ∧
      cb.capacity ≤ (circlebuf_place cb pos bytes).capacity) ∧
    (SafeInv (circlebuf_ensure_capacity cb) ∧
      cb.capacity ≤ (circlebuf_ensure_capacity cb).capacity) := by
  refine ⟨models_safeInv cb l hm, ?_, ?_, ?_, ?_, ?_, ?_, ?_, ?_, ?_, ?_⟩
  · intro bytes
    obtain ⟨h1, h2⟩ := push_back_spec cb l bytes hm
    exact ⟨models_safeInv _ _ h1, h2⟩
  · intro bytes
    obtain ⟨h1, h2⟩ := push_front_spec cb l bytes hm
    exact ⟨models_safeInv _ _ h1, h2⟩
  · intro k
    rw [push_back_zero_eq cb k l hm]
    obtain ⟨h1, h2⟩ := push_back_spec cb l (List.replicate k 0) hm
    exact ⟨models_safeInv _ _ h1, h2⟩
  · intro k
    rw [push_front_zero_eq cb k]
    obtain ⟨h1, h2⟩ := push_front_spec cb l (List.replicate k 0) hm
    exact ⟨models_safeInv _ _ h1, h2⟩
  · intro n hn
    obtain ⟨_, h1, h2⟩ := pop_front_spec cb l n hm hn
    exact ⟨models_safeInv _ _ h1, by omega⟩
  · intro n hn
    obtain ⟨_, h1, h2⟩ := pop_back_spec cb l n hm hn
    exact ⟨models_safeInv _ _ h1, by omega⟩
  · intro c
    obtain ⟨h1, h2⟩ := reserve_spec cb l c hm
    exact ⟨models_safeInv _ _ h1, by omega⟩
  · intro sz
    by_cases h : sz ≤ cb.size
    · rw [upsize_noop cb sz h]
      exact ⟨models_safeInv cb l hm, Nat.le_refl _⟩
    · obtain ⟨h1, h2⟩ := upsize_spec cb l sz hm (by omega)
      exact ⟨models_safeInv _ _ h1, h2⟩
  · intro pos bytes
    obtain ⟨h1, _, h2⟩ := place_spec cb l bytes pos hm
    exact ⟨models_safeInv _ _ h1, h2⟩
  · rw [ensure_capacity_of_le cb hm.2.2.1]
    exact ⟨models_safeInv cb l hm, Nat.le_refl _⟩

/-- C2 witness: instantiated on a concrete wrapped buffer. -/
theorem claim_C2_witness :
    SafeInv cbW ∧
    (SafeInv (circlebuf_pop_front cbW 2).2 ∧
      cbW.capacity ≤ (circlebuf_pop_front cbW 2).2.capacity) ∧
    (SafeInv (circlebuf_push_back cbW [9, 9, 9]) ∧
      cbW.capacity ≤ (circlebuf_push_back cbW [9, 9, 9]).capacity) := by
  have h := claim_C2_invariants cbW lW (by decide)
  exact ⟨h.1, h.2.2.2.2.2.1 2 (by decide), h.2.1 [9, 9, 9]⟩

/-- C3 counterexample: `circlebuf_reserve` grows a capacity-3 buffer to the
requested capacity 4, not to `max (2*3) 4 = 6` as the claim states for every
growing operation. -/
theorem claim_C3_counterexample :
    cbR.capacity = 3 ∧
    (circlebuf_reserve cbR 4).capacity = 4 ∧
    max (cbR.capacity * 2) 4 = 6 ∧
    (circlebuf_reserve cbR 4).capacity ≠ max (cbR.capacity * 2) 4 := by
  decide

/-- C3 amended: when growth is driven by `size` exceeding the capacity
(`circlebuf_ensure_capacity`, reached from the push/upsize paths with the
`size` field already bumped by `k`), the new capacity is
`max (2*capacity) size`; an explicit `circlebuf_reserve` of a larger capacity
sets exactly the requested capacity.  In both cases the stored bytes are
preserved unchanged, wrapped or not. -/
theorem claim_C3_amended (cb : Circlebuf) (l : List Nat) (hm : Models cb l) :
    (∀ k, cb.capacity < cb.size + k →
      (circlebuf_ensure_capacity { cb with size := cb.size + k }).capacity
        = max (cb.capacity * 2) (cb.size + k) ∧
      ModelsGeom (circlebuf_ensure_capacity { cb with size := cb.size + k }) cb.size l) ∧
    (∀ c, cb.capacity < c →
      (circlebuf_reserve cb c).capacity = c ∧ Models (circlebuf_reserve cb c) l) := by
  constructor
  · intro k hk
    have hg : ModelsGeom { cb with size := cb.size + k } cb.size l := hm.2
    have h := ensure_capacity_spec { cb with size := cb.size + k } cb.size l hg
      (by dsimp only; omega)
    obtain ⟨_, _, _, _, h5, h6⟩ := h
    dsimp only at h5
    rw [if_neg (by omega)] at h5
    exact ⟨h5, h6⟩
  · intro c hc
    obtain ⟨h1, h2⟩ := reserve_spec cb l c hm
    exact ⟨by omega, h1⟩

/-- C3 witness: growth of a concrete wrapped buffer by both paths. -/
theorem claim_C3_witness :
    ((circlebuf_ensure_capacity { cbW with size := cbW.size + 3 }).capacity
      = max (cbW.capacity * 2) (cbW.size + 3) ∧
     ModelsGeom (circlebuf_ensure_capacity { cbW with size := cbW.size + 3 }) cbW.size lW) ∧
    ((circlebuf_reserve cbW 10).capacity = 10 ∧ Models (circlebuf_reserve cbW 10) lW) :=
  ⟨(claim_C3_amended cbW lW (by decide)).1 3 (by decide),
   (claim_C3_amended cbW lW (by decide)).2 10 (by decide)⟩

/-- C9: `circlebuf_data` returns `NULL` (modelled as `none`) exactly when the
index is at least `size`, and otherwise a pointer to the stored byte at
physical offset `(start_pos + idx) mod capacity`. -/
theorem claim_C9_data_at (cb : Circlebuf) (l : List Nat) (i : Nat) (hm : Models cb l) :
    (circlebuf_data cb i = none ↔ cb.size ≤ i) ∧
    (i < cb.size → ∃ off, circlebuf_data cb i = some off ∧
      off = (cb.start_pos + i) % cb.capacity ∧ cb.data[off]? = l[i]?) :=
  data_spec cb l i hm

/-- C9 witness: in-range index 1 (which wraps physically) and the out-of-range
boundary of the concrete wrapped buffer. -/
theorem claim_C9_witness :
    ((circlebuf_data cbW 1 = none ↔ cbW.size ≤ 1) ∧
     (1 < cbW.size → ∃ off, circlebuf_data cbW 1 = some off ∧
       off = (cbW.start_pos + 1) % cbW.capacity ∧ cbW.data[off]? = lW[1]?)) :=
  claim_C9_data_at cbW lW 1 (by decide)

theorem getElem?_replicate_of_lt (n i : Nat) (h : i < n) :
    (List.replicate n (0 : Nat))[i]? = some 0 := by
  rw [List.getElem?_eq_getElem (by simpa using h)]
  simp

/-- C6: `circlebuf_place cb position data` leaves the buffer holding a byte
sequence of length `max size (position + n)` whose bytes at logical
`[position, position+n)` are the given data, whose previously stored bytes
outside that range are unchanged, and whose gap bytes between the old size and
`position` (if the buffer grew) are zero. -/
theorem claim_C6_place (cb : Circlebuf) (l bytes : List Nat) (pos : Nat)
    (hm : Models cb l) :
    (circlebuf_place cb pos bytes).size = max cb.size (pos + bytes.length) ∧
    ∃ l', Models (circlebuf_place cb pos bytes) l' ∧
      l'.length = max cb.size (pos + bytes.length) ∧
      (∀ j, j < bytes.length → l'[pos + j]? = bytes[j]?) ∧
      (∀ j, j < cb.size → j < pos ∨ pos + bytes.length ≤ j → l'[j]? = l[j]?) ∧
      (∀ j, cb.size ≤ j → j < pos → l'[j]? = some 0) := by
  obtain ⟨hmods, hsz, _⟩ := place_spec cb l bytes pos hm
  have hlen := hm.1
  have hGlen : (l ++ List.replicate (pos + bytes.length - cb.size) 0).length
      = max cb.size (pos + bytes.length) := by
    rw [List.length_append, List.length_replicate]
    omega
  have hwG : pos + bytes.length ≤
      (l ++ List.replicate (pos + bytes.length - cb.size) 0).length := by
    omega
  refine ⟨hsz, _, hmods, ?_, ?_, ?_, ?_⟩
  · rw [memWrite_length _ _ _ hwG, hGlen]
  · intro j hj
    rw [memWrite_getElem?_mid _ _ _ _ hwG (by omega) (by omega)]
    congr 1
    omega
  · intro j hjs hout
    rcases hout with hlo | hhi
    · rw [memWrite_getElem?_left _ _ _ _ hwG hlo]
      rw [List.getElem?_append_left (by omega)]
    · rw [memWrite_getElem?_right _ _ _ _ hwG hhi]
      rw [List.getElem?_append_left (by omega)]
  · intro j hjs hlo
    rw [memWrite_getElem?_left _ _ _ _ hwG hlo]
    rw [List.getElem?_append_right (by omega)]
    rw [hlen]
    exact getElem?_replicate_of_lt _ _ (by omega)

/-- C6 witness: place two bytes past the end of the concrete wrapped buffer,
forcing growth and a zero-filled gap. -/
theorem claim_C6_witness :
    (circlebuf_place cbW 6 [8, 9]).size = max cbW.size (6 + 2) ∧
    ∃ l', Models (circlebuf_place cbW 6 [8, 9]) l' ∧
      l'.length = max cbW.size (6 + 2) ∧
      (∀ j, j < 2 → l'[6 + j]? = [8, 9][j]?) ∧
      (∀ j, j < cbW.size → j < 6 ∨ 6 + 2 ≤ j → l'[j]? = lW[j]?) ∧
      (∀ j, cbW.size ≤ j → j < 6 → l'[j]? = some 0) := by
  have h := claim_C6_place cbW lW [8, 9] 6 (by decide)
  exact h

/-- C4: when the `uint64_t` sum `m_audio_ts + m_ts_offset` does not wrap,
`get_audio_sync ts` is negative exactly when the end of available audio is
earlier than `ts`, and its absolute value is the absolute difference clamped
to `MAX_TS_DELTA` = 16 seconds in nanoseconds. -/
theorem claim_C4_audio_sync (m_audio_ts : Nat) (m_ts_offset : Int) (ts : Nat)
    (h3 : 0 ≤ (m_audio_ts : Int) + m_ts_offset)
    (h4 : (m_audio_ts : Int) + m_ts_offset < 2 ^ 64) :
    MAX_TS_DELTA = 16 * 1000000000 ∧
    (get_audio_sync m_audio_ts m_ts_offset ts < 0 ↔
      (m_audio_ts : Int) + m_ts_offset < (ts : Int)) ∧
    (get_audio_sync m_audio_ts m_ts_offset ts).natAbs
      = min ((m_audio_ts : Int) + m_ts_offset - (ts : Int)).natAbs MAX_TS_DELTA := by
  simp only [get_audio_sync]
  rw [Int.emod_eq_of_lt h3 h4]
  have haI : ((((m_audio_ts : Int) + m_ts_offset).toNat : Int))
      = (m_audio_ts : Int) + m_ts_offset := Int.toNat_of_nonneg h3
  refine ⟨by unfold MAX_TS_DELTA; omega, ?_, ?_⟩
  · split_ifs with hlt
    · rw [Nat.max_eq_right (Nat.le_of_lt hlt), Nat.min_eq_left (Nat.le_of_lt hlt)]
      constructor
      · intro _
        omega
      · intro _
        have h5 : 0 < min (ts - ((m_audio_ts : Int) + m_ts_offset).toNat) MAX_TS_DELTA :=
          lt_min_iff.mpr ⟨by omega, by unfold MAX_TS_DELTA; norm_num⟩
        have h6 : (0 : Int)
            < ((min (ts - ((m_audio_ts : Int) + m_ts_offset).toNat) MAX_TS_DELTA : Nat) : Int) := by
          exact_mod_cast h5
        linarith
    · constructor
      · intro hcon
        exact absurd hcon (not_lt.mpr (Int.natCast_nonneg _))
      · intro hcon
        omega
  · split_ifs with hlt
    · rw [Int.natAbs_neg, Int.natAbs_ofNat]
      rw [Nat.max_eq_right (Nat.le_of_lt hlt), Nat.min_eq_left (Nat.le_of_lt hlt)]
      have hab : ((m_audio_ts : Int) + m_ts_offset - (ts : Int)).natAbs
          = ts - ((m_audio_ts : Int) + m_ts_offset).toNat := by
        omega
      rw [hab]
    · rw [Int.natAbs_ofNat]
      rw [Nat.max_eq_left (Nat.le_of_not_lt hlt), Nat.min_eq_right (Nat.le_of_not_lt hlt)]
      have hab : ((m_audio_ts : Int) + m_ts_offset - (ts : Int)).natAbs
          = ((m_audio_ts : Int) + m_ts_offset).toNat - ts := by
        omega
      rw [hab]

/-- C4 witness: audio end 70 ns (100 with offset -30) versus ts 90 ns. -/
theorem claim_C4_witness :
    MAX_TS_DELTA = 16 * 1000000000 ∧
    (get_audio_sync 100 (-30) 90 < 0 ↔ ((100 : Nat) : Int) + (-30) < ((90 : Nat) : Int)) ∧
    (get_audio_sync 100 (-30) 90).natAbs
      = min (((100 : Nat) : Int) + (-30) - ((90 : Nat) : Int)).natAbs MAX_TS_DELTA :=
  claim_C4_audio_sync 100 (-30) 90 (by norm_num) (by norm_num)

/-- C5: `dbfs` is `20*log10(mag)` for positive magnitudes and the floor
constant `DB_MIN` for `mag ≤ 0`; in particular `dbfs 0 = DB_MIN` (never a
negative infinity). -/
theorem claim_C5_dbfs (db_min mag : ℝ) :
    (0 < mag → dbfs db_min mag = 20 * Real.logb 10 mag) ∧
    (mag ≤ 0 → dbfs db_min mag = db_min) ∧
    dbfs db_min 0 = db_min := by
  refine ⟨?_, ?_, ?_⟩ <;> unfold dbfs
  · intro h
    rw [if_pos h]
  · intro h
    rw [if_neg (not_lt.mpr h)]
  · rw [if_neg (lt_irrefl 0)]

/-- C5 witness: the two branches at magnitudes 1 and 0 with floor -120. -/
theorem claim_C5_witness :
    dbfs (-120) 1 = 20 * Real.logb 10 1 ∧ dbfs (-120) 0 = -120 :=
  ⟨(claim_C5_dbfs (-120) 1).1 one_pos, (claim_C5_dbfs (-120) 0).2.1 (le_refl 0)⟩

/-- C7 counterexample: with the smoothing mode `EXPONENTIAL` and
`m_gravity = -1`, `get_gravity` returns `0` (the `m_gravity ≤ 0` guard fires),
not the per-frame coefficient `m_gravity = -1` that the claim asserts for the
`EXPONENTIAL` mode. -/
theorem claim_C7_counterexample :
    get_gravity TSmoothingMode.EXPONENTIAL (-1) 1 = 0 ∧
    get_gravity TSmoothingMode.EXPONENTIAL (-1) 1 ≠ (-1 : ℝ) := by
  have hval : get_gravity TSmoothingMode.EXPONENTIAL (-1) 1 = 0 := by
    unfold get_gravity
    rw [if_pos (Or.inr (by norm_num))]
  refine ⟨hval, ?_⟩
  rw [hval]
  norm_num

/-- C7 amended: `get_gravity` returns 0 when the mode is NONE or
`m_gravity ≤ 0`; for positive `m_gravity` it returns `m_gravity` in
EXPONENTIAL mode and `exp(-seconds / lerp 0 (5*k) m_gravity)` with the fixed
tuning constant `k` in TVEXPONENTIAL mode. -/
theorem claim_C7_amended (g s : ℝ) :
    (∀ m, m = TSmoothingMode.NONE ∨ g ≤ 0 → get_gravity m g s = 0) ∧
    (0 < g → get_gravity TSmoothingMode.EXPONENTIAL g s = g) ∧
    (0 < g → get_gravity TSmoothingMode.TVEXPONENTIAL g s
      = Real.exp (-s / lerp 0 (gravity_denom * 5) g)) := by
  refine ⟨?_, ?_, ?_⟩
  · intro m hm
    unfold get_gravity
    rw [if_pos hm]
  · intro hg
    unfold get_gravity
    rw [if_neg ?_, if_neg (by decide)]
    rintro (h | h)
    · exact absurd h (by decide)
    · exact absurd h (not_le.mpr hg)
  · intro hg
    unfold get_gravity
    rw [if_neg ?_, if_pos rfl]
    rintro (h | h)
    · exact absurd h (by decide)
    · exact absurd h (not_le.mpr hg)

/-- C7 witness: all three modes with gravity 1 and one frame of 2 seconds. -/
theorem claim_C7_witness :
    get_gravity TSmoothingMode.NONE 1 2 = 0 ∧
    get_gravity TSmoothingMode.EXPONENTIAL 1 2 = 1 ∧
    get_gravity TSmoothingMode.TVEXPONENTIAL 1 2
      = Real.exp (-2 / lerp 0 (gravity_denom * 5) 1) :=
  ⟨(claim_C7_amended 1 2).1 TSmoothingMode.NONE (Or.inl rfl),
   (claim_C7_amended 1 2).2.1 one_pos,
   (claim_C7_amended 1 2).2.2 one_pos⟩

/-- C10: `get_gravity` returns exactly 0 whenever the mode is NONE or
`m_gravity ≤ 0`, and whenever the time-variant branch is reached
(`0 < m_gravity`) the denominator `lerp 0 (5*k) m_gravity` of the division is
strictly positive, so a gravity setting of 0 never divides by zero. -/
theorem claim_C10_gravity_guard (m : TSmoothingMode) (g s : ℝ) :
    (m = TSmoothingMode.NONE ∨ g ≤ 0 → get_gravity m g s = 0) ∧
    (0 < g → 0 < lerp 0 (gravity_denom * 5) g) := by
  constructor
  · intro h
    unfold get_gravity
    rw [if_pos h]
  · intro hg
    have hx : (0 : ℝ) < gravity_denom * 5 := by
      unfold gravity_denom
      norm_num
    unfold lerp
    simp only [sub_zero, zero_add]
    exact mul_pos hg hx

/-- C10 witness: gravity -3 yields 0; at gravity 1 the denominator is
positive. -/
theorem claim_C10_witness :
    get_gravity TSmoothingMode.EXPONENTIAL (-3) 1 = 0 ∧
    0 < lerp 0 (gravity_denom * 5) 1 :=
  ⟨(claim_C10_gravity_guard TSmoothingMode.EXPONENTIAL (-3) 1).1 (Or.inr (by norm_num)),
   (claim_C10_gravity_guard TSmoothingMode.TVEXPONENTIAL 1 1).2 one_pos⟩

